import Mathlib

/-!
# FlatGeoGraphBuf graph codec — verification development

A shallow embedding of the FlatGeoGraphBuf TypeScript graph codec
(`src/ts/graph.ts`, `src/ts/geojson/featurecollection.ts`, `src/ts/constants.ts`)
and proofs about it.

Byte buffers (`Uint8Array`) are modelled as `List Nat` with the convention that
every element is `< 256`.  All multi-byte reads and writes are little-endian,
mirroring `DataView` with `littleEndian = true`.  JavaScript numbers are
modelled by their IEEE-754 binary64 bit patterns (`PropValue.vF64`), except
that integer values produced by the integer getters of `DataView` are carried
exactly (`PropValue.vInt`); strings are identified with their UTF-8 byte
sequences.  The handful of JavaScript runtime conversions whose full ECMA-262
semantics is out of scope (decimal formatting of doubles, string-to-number
parsing, float32 narrowing/widening, `toString` of plain objects, array-like
coercion to bytes) are abstracted into a `JsRuntime` record of oracle
functions; every theorem below is universally quantified over the oracle, so
nothing proved depends on a particular choice.
-/

deriving instance DecidableEq for Except

namespace FGG

/-- Byte of a buffer at index `i`; out-of-range reads give `0`.  (`DataView`
getters over the underlying `ArrayBuffer`; reads past the true end of the
buffer would raise in JS — the development only evaluates in-bounds reads.) -/
def byteAt (bs : List Nat) (i : Nat) : Nat := bs.getD i 0

/-- `DataView.setUint16(_, n, true)`: the two little-endian bytes of `n % 2^16`. -/
def u16le (n : Nat) : List Nat := [n % 256, n / 256 % 256]

/-- `DataView.setUint32(_, n, true)`: the four little-endian bytes of `n % 2^32`. -/
def u32le (n : Nat) : List Nat :=
  [n % 256, n / 2 ^ 8 % 256, n / 2 ^ 16 % 256, n / 2 ^ 24 % 256]

/-- `DataView.setBigUint64(_, n, true)`: the eight little-endian bytes of `n % 2^64`. -/
def u64le (n : Nat) : List Nat :=
  [n % 256, n / 2 ^ 8 % 256, n / 2 ^ 16 % 256, n / 2 ^ 24 % 256,
   n / 2 ^ 32 % 256, n / 2 ^ 40 % 256, n / 2 ^ 48 % 256, n / 2 ^ 56 % 256]

/-- `DataView.getUint16(off, true)`. -/
def readU16 (bs : List Nat) (off : Nat) : Nat :=
  byteAt bs off + 2 ^ 8 * byteAt bs (off + 1)

/-- `DataView.getUint32(off, true)` (also `flatbuffers.ByteBuffer.readUint32`). -/
def readU32 (bs : List Nat) (off : Nat) : Nat :=
  byteAt bs off + 2 ^ 8 * byteAt bs (off + 1) + 2 ^ 16 * byteAt bs (off + 2) +
    2 ^ 24 * byteAt bs (off + 3)

/-- `DataView.getBigUint64(off, true)`. -/
def readU64 (bs : List Nat) (off : Nat) : Nat :=
  byteAt bs off + 2 ^ 8 * byteAt bs (off + 1) + 2 ^ 16 * byteAt bs (off + 2) +
    2 ^ 24 * byteAt bs (off + 3) + 2 ^ 32 * byteAt bs (off + 4) +
    2 ^ 40 * byteAt bs (off + 5) + 2 ^ 48 * byteAt bs (off + 6) +
    2 ^ 56 * byteAt bs (off + 7)

/-- Two's-complement reinterpretation of a `w`-bit unsigned value. -/
def signed (w : Nat) (n : Nat) : Int :=
  if n < 2 ^ (w - 1) then (n : Int) else (n : Int) - 2 ^ w

/-! ## Property values

`EdgeProperties` values (`boolean | number | string | Uint8Array | object |
null`, see `graph-types.ts`).  Numbers are represented by `vF64` (the IEEE-754
binary64 bit pattern of the value) in caller-supplied data, and by `vInt`
(the exact integer) when produced by an integer getter of `DataView` during
decoding; `vF32` carries the binary32 bit pattern delivered by `getFloat32`.
A string is identified with its UTF-8 byte sequence (`TextEncoder` /
`TextDecoder` are mutually inverse on well-formed data), a plain object with
the UTF-8 text that `JSON.stringify` produces for it. -/
inductive PropValue where
  | vBool (b : Bool)
  | vInt (i : Int)
  | vF64 (bits : Nat)
  | vF32 (bits : Nat)
  | vStr (utf8 : List Nat)
  | vJson (utf8 : List Nat)
  | vBin (bytes : List Nat)
  | vNull

deriving DecidableEq, Repr

/-- JavaScript runtime conversions kept abstract: every theorem is quantified
over this record, so no result depends on a particular model of ECMA-262
number formatting or parsing. -/
structure JsRuntime where
  /-- `Number::toString` (UTF-8 text) of the double with the given bit pattern. -/
  numToText : Nat → List Nat
  /-- `ToNumber` of a string (given as UTF-8 bytes), as binary64 bits. -/
  textToNum : List Nat → Nat
  /-- binary32 → binary64 widening on bit patterns (`getFloat32` exposure). -/
  f32toF64 : Nat → Nat
  /-- binary64 → binary32 rounding on bit patterns (`setFloat32`). -/
  f64toF32 : Nat → Nat
  /-- `ToString` of the plain object whose JSON text is given. -/
  objToString : List Nat → List Nat
  /-- Byte sequence written by `Uint8Array.prototype.set` for a non-`Uint8Array`
  array-like value (used only when a Binary column meets a mismatched value). -/
  binRepr : PropValue → List Nat

/-! ## IEEE-754 helpers (exact integer arithmetic, no floating point) -/

/-- Fuel-driven bit-length worker (the fuel makes the halving recursion
structural, so the kernel can evaluate it; `fuel ≥ m` suffices). -/
def bitLenGo : Nat → Nat → Nat
  | 0, _ => 0
  | fuel + 1, m => if m = 0 then 0 else bitLenGo fuel (m / 2) + 1

/-- Number of binary digits of `n` (`0` for `0`). -/
def bitLen (n : Nat) : Nat := bitLenGo n n

/-- Round a positive natural to at most 53 significant bits, ties to even
(the rounding applied when a wide integer is converted to a double). -/
def roundSig53 (n : Nat) : Nat :=
  let b := bitLen n
  if b ≤ 53 then n
  else
    let k := b - 53
    let q := n / 2 ^ k
    let r := n % 2 ^ k
    let h := 2 ^ (k - 1)
    let q2 := if r > h ∨ (r = h ∧ q % 2 = 1) then q + 1 else q
    q2 * 2 ^ k

/-- The exact value of the binary64 double nearest to the integer `i`
(ties to even); this is the value JavaScript `Number(bigint)` returns for
any `|i| < 2^1024`. -/
def nearestDouble (i : Int) : Int :=
  if i < 0 then -(roundSig53 i.natAbs : Int) else (roundSig53 i.natAbs : Int)

/-- Binary64 bit pattern of the double nearest to the integer `i`
(`+0` for `0`, infinity on exponent overflow). -/
def f64BitsOfInt (i : Int) : Nat :=
  if i = 0 then 0
  else
    let s := if i < 0 then 2 ^ 63 else 0
    let n := roundSig53 i.natAbs
    let b := bitLen n
    if b - 1 + 1023 ≥ 2047 then s + 2047 * 2 ^ 52
    else
      let m := if b ≥ 53 then n / 2 ^ (b - 53) else n * 2 ^ (53 - b)
      s + (b - 1 + 1023) * 2 ^ 52 + (m - 2 ^ 52)

/-- Truncation toward zero of the double with the given bits (ECMA `ToIntegerOrInfinity`
core; NaN and the infinities are sent to `0`, as the `ToIntN` wrappers do). -/
def f64TruncInt (bits : Nat) : Int :=
  let s := bits / 2 ^ 63
  let e := bits / 2 ^ 52 % 2 ^ 11
  let m := bits % 2 ^ 52
  if e = 2047 then 0
  else
    let mag : Nat := if e = 0 then 0 else (2 ^ 52 + m) * 2 ^ e / 2 ^ 1075
    if s = 1 then -(mag : Int) else (mag : Int)

/-- Whether the double with the given bits is a (finite) mathematical integer
(`BigInt(number)` succeeds exactly on these). -/
def f64IsInteger (bits : Nat) : Bool :=
  let e := bits / 2 ^ 52 % 2 ^ 11
  let m := bits % 2 ^ 52
  if e = 2047 then false
  else if e = 0 then m = 0
  else e ≥ 1075 ∨ (2 ^ 52 + m) % 2 ^ (1075 - e) = 0

/-- Whether the double with the given bits is `±0` or NaN (the falsy doubles). -/
def f64IsZeroOrNaN (bits : Nat) : Bool :=
  let e := bits / 2 ^ 52 % 2 ^ 11
  let m := bits % 2 ^ 52
  (e = 0 ∧ m = 0) ∨ (e = 2047 ∧ m ≠ 0)

/-- Whether the double with the given bits is finite. -/
def f64IsFinite (bits : Nat) : Bool :=
  bits / 2 ^ 52 % 2 ^ 11 ≠ 2047

/-- Whether the binary32 pattern is `±0` or NaN (for truthiness of a widened float). -/
def f32IsZeroOrNaN (bits : Nat) : Bool :=
  let e := bits / 2 ^ 23 % 2 ^ 8
  let m := bits % 2 ^ 23
  (e = 0 ∧ m = 0) ∨ (e = 255 ∧ m ≠ 0)

/-- Binary64 bits of `1.0`. -/
def oneBits : Nat := 1023 * 2 ^ 52

/-- Binary64 bits of the canonical NaN. -/
def nanBits : Nat := 2047 * 2 ^ 52 + 2 ^ 51

/-! ## Text helpers (UTF-8 byte sequences) -/

/-- ASCII decimal digits of a natural number. -/
def natDecimal (n : Nat) : List Nat :=
  (Nat.toDigits 10 n).map Char.toNat

/-- ASCII decimal text of an integer (`${n}` for an integer-valued JS number). -/
def intDecimal (i : Int) : List Nat :=
  if i < 0 then 45 :: natDecimal i.natAbs else natDecimal i.natAbs

/-- UTF-8 encoding of one character. -/
def utf8Char (c : Char) : List Nat :=
  let n := c.toNat
  if n < 0x80 then [n]
  else if n < 0x800 then [0xC0 + n / 64, 0x80 + n % 64]
  else if n < 0x10000 then [0xE0 + n / 4096, 0x80 + n / 64 % 64, 0x80 + n % 64]
  else [0xF0 + n / 262144, 0x80 + n / 4096 % 64, 0x80 + n / 64 % 64, 0x80 + n % 64]

/-- UTF-8 bytes of a string literal. -/
def utf8 (s : String) : List Nat := (s.data.map utf8Char).flatten

/-- `Uint8Array.prototype.toString`: decimal elements joined by commas. -/
def commaJoin : List Nat → List Nat
  | [] => []
  | [b] => natDecimal b
  | b :: rest => natDecimal b ++ [44] ++ commaJoin rest

/-- JS truthiness of a property value (`value ? 1 : 0`). -/
def jsTruthy (v : PropValue) : Bool :=
  match v with
  | .vBool b => b
  | .vInt i => i ≠ 0
  | .vF64 bits => ¬f64IsZeroOrNaN bits
  | .vF32 bits => ¬f32IsZeroOrNaN bits
  | .vStr s => s ≠ []
  | .vJson _ => true
  | .vBin _ => true
  | .vNull => false

/-- ECMA `ToNumber` of a property value, as binary64 bits. -/
def toNumberBits (rt : JsRuntime) (v : PropValue) : Nat :=
  match v with
  | .vBool true => oneBits
  | .vBool false => 0
  | .vInt i => f64BitsOfInt i
  | .vF64 bits => bits
  | .vF32 bits => rt.f32toF64 bits
  | .vStr s => rt.textToNum s
  | .vJson t => rt.textToNum (rt.objToString t)
  | .vBin b => rt.textToNum (commaJoin b)
  | .vNull => 0

/-- ECMA `ToString` of a property value, as UTF-8 bytes. -/
def jsToText (rt : JsRuntime) (v : PropValue) : List Nat :=
  match v with
  | .vBool true => utf8 "true"
  | .vBool false => utf8 "false"
  | .vInt i => intDecimal i
  | .vF64 bits => rt.numToText bits
  | .vF32 bits => rt.numToText (rt.f32toF64 bits)
  | .vStr s => s
  | .vJson t => rt.objToString t
  | .vBin b => commaJoin b
  | .vNull => utf8 "null"

/-- JSON string escaping of a byte (quote, backslash, control characters). -/
def jsonEscapeByte (b : Nat) : List Nat :=
  if b = 34 then [92, 34]
  else if b = 92 then [92, 92]
  else if b < 32 then
    let hi := b / 16
    let lo := b % 16
    [92, 117, 48, 48, (if hi < 10 then 48 + hi else 87 + hi), (if lo < 10 then 48 + lo else 87 + lo)]
  else [b]

/-- `JSON.stringify` of a string value: quoted, escaped. -/
def jsonQuote (s : List Nat) : List Nat :=
  [34] ++ (s.map jsonEscapeByte).flatten ++ [34]

/-- `JSON.stringify` of a `Uint8Array`: an object of index keys. -/
def jsonOfBytes (bs : List Nat) : List Nat :=
  let entries := (List.range bs.length).zip bs |>.map fun p =>
    [34] ++ natDecimal p.1 ++ [34, 58] ++ natDecimal p.2
  [123] ++ (List.intersperse [44] entries).flatten ++ [125]

/-- `JSON.stringify(value)` for every value in the domain (without
pretty-printing).  Non-finite numbers serialize as `null`. -/
def jsonStringify (rt : JsRuntime) (v : PropValue) : List Nat :=
  match v with
  | .vBool true => utf8 "true"
  | .vBool false => utf8 "false"
  | .vInt i => intDecimal i
  | .vF64 bits => if f64IsFinite bits then rt.numToText bits else utf8 "null"
  | .vF32 bits =>
      if f64IsFinite (rt.f32toF64 bits) then rt.numToText (rt.f32toF64 bits) else utf8 "null"
  | .vStr s => jsonQuote s
  | .vJson t => t
  | .vBin b => jsonOfBytes b
  | .vNull => utf8 "null"

/-! ## Column schema (`column-meta.ts`, `flat-geobuf/column-type.ts`)

The `ColumnType` enum values; a decoded column's type field carries the raw
byte (`bytes[offset + pos] as ColumnType`), so the embedding stores a `Nat`. -/

def ctByte : Nat := 0

def ctUByte : Nat := 1

def ctBool : Nat := 2

def ctShort : Nat := 3

def ctUShort : Nat := 4

def ctInt : Nat := 5

def ctUInt : Nat := 6

def ctLong : Nat := 7

def ctULong : Nat := 8

def ctFloat : Nat := 9

def ctDouble : Nat := 10

def ctString : Nat := 11

def ctJson : Nat := 12

def ctDateTime : Nat := 13

def ctBinary : Nat := 14

/-- The fields of `ColumnMeta` the graph codec reads and writes (name as UTF-8
bytes, type as the raw enum byte); the remaining metadata fields are constants
on both sides and carry no information. -/
structure ColumnMeta where
  name : List Nat
  type : Nat

deriving DecidableEq, Repr

/-- An edge property map: association list in object-key iteration order. -/
abbrev Props := List (List Nat × PropValue)

/-- `properties[name]` lookup. -/
def propGet (ps : Props) (name : List Nat) : Option PropValue :=
  match ps with
  | [] => none
  | (k, v) :: rest => if k = name then some v else propGet rest name

/-- `properties[name] = v`: overwrite in place or append (JS object assignment). -/
def propSet (ps : Props) (name : List Nat) (v : PropValue) : Props :=
  match ps with
  | [] => [(name, v)]
  | (k, w) :: rest => if k = name then (k, v) :: rest else (k, w) :: propSet rest name v

/-! ## Edge and adjacency-list data (`graph-types.ts`) -/

/-- `EdgeInput`: `from`/`to` are JS numbers (validated against `featureCount`
at write time, so they are modelled exactly as integers); `properties` is
optional. -/
structure EdgeInput where
  fromIdx : Int
  toIdx : Int
  properties : Option Props := none

deriving DecidableEq, Repr

/-- A decoded `Edge`: `from`/`to` come from `getUint32`, `properties` is
always present. -/
structure Edge where
  fromIdx : Nat
  toIdx : Nat
  properties : Props

deriving DecidableEq, Repr

structure AdjacencyList where
  edges : List Edge

deriving DecidableEq, Repr

/-- `GraphHeaderMeta`: `edgeColumns` is `null` when no columns are present. -/
structure GraphHeaderMeta where
  edgeCount : Nat
  edgeColumns : Option (List ColumnMeta)

deriving DecidableEq, Repr

/-! ## Writer (`graph.ts`) -/

/-- `valueToColumnType`: Bool for booleans, Double for numbers, String for
strings and for `null`, Binary for `Uint8Array`, Json for any other object.
(The source throws for `undefined` and non-object exotics, which are outside
the value domain.) -/
def valueToColumnType (v : PropValue) : Nat :=
  match v with
  | .vBool _ => ctBool
  | .vInt _ => ctDouble
  | .vF64 _ => ctDouble
  | .vF32 _ => ctDouble
  | .vStr _ => ctString
  | .vNull => ctString
  | .vBin _ => ctBinary
  | .vJson _ => ctJson

/-- Whether an `EdgeInput` has a non-empty property map
(`e.properties && Object.keys(e.properties).length > 0`). -/
def hasProps (e : EdgeInput) : Bool :=
  match e.properties with
  | some ps => !ps.isEmpty
  | none => false

/-- `introspectEdgeColumns`: the schema is the key/inferred-type list of the
first edge carrying a non-empty property map, or `null`. -/
def introspectEdgeColumns (edges : List EdgeInput) : Option (List ColumnMeta) :=
  match edges.find? hasProps with
  | some e =>
      match e.properties with
      | some ps => some (ps.map fun p => ⟨p.1, valueToColumnType p.2⟩)
      | none => none
  | none => none

/-- `buildGraphHeader`: `[edgeCount u32][columnCount u16]` then per column
`[nameLen u16][name][type u8]`. -/
def buildGraphHeader (edgeCount : Nat) (edgeColumns : Option (List ColumnMeta)) : List Nat :=
  let cols := edgeColumns.getD []
  u32le edgeCount ++ u16le cols.length ++
    (cols.map fun c => u16le c.name.length ++ c.name ++ [c.type % 256]).flatten

/-- One value in its column's declared binary form (the body of the `switch`
in `encodeEdgeProperties`).  Branches for Byte, UByte, ULong and unknown type
bytes raise `Unknown column type` exactly as the source's `default` arm does;
the writer of this repository never produces such columns. -/
def encodeValue (rt : JsRuntime) (t : Nat) (v : PropValue) : Except (List Nat) (List Nat) :=
  if t = ctBool then .ok [if jsTruthy v then 1 else 0]
  else if t = ctShort then .ok (u16le ((f64TruncInt (toNumberBits rt v)) % 2 ^ 16).toNat)
  else if t = ctUShort then .ok (u16le ((f64TruncInt (toNumberBits rt v)) % 2 ^ 16).toNat)
  else if t = ctInt then .ok (u32le ((f64TruncInt (toNumberBits rt v)) % 2 ^ 32).toNat)
  else if t = ctUInt then .ok (u32le ((f64TruncInt (toNumberBits rt v)) % 2 ^ 32).toNat)
  else if t = ctLong then
    -- `setBigInt64(offset, BigInt(value as number))`: `BigInt` demands an
    -- integral number (it raises otherwise), then the int64 is written wrapped.
    match v with
    | .vInt i => .ok (u64le (i % 2 ^ 64).toNat)
    | v =>
        if f64IsInteger (toNumberBits rt v) then
          .ok (u64le ((f64TruncInt (toNumberBits rt v)) % 2 ^ 64).toNat)
        else .error (utf8 "Cannot convert to BigInt")
  else if t = ctFloat then .ok (u32le (rt.f64toF32 (toNumberBits rt v) % 2 ^ 32))
  else if t = ctDouble then .ok (u64le (toNumberBits rt v % 2 ^ 64))
  else if t = ctDateTime ∨ t = ctString then
    let s := jsToText rt v
    .ok (u32le s.length ++ s)
  else if t = ctJson then
    let s := jsonStringify rt v
    .ok (u32le s.length ++ s)
  else if t = ctBinary then
    match v with
    | .vBin b => .ok (u32le b.length ++ b)
    | v => .ok (u32le (rt.binRepr v).length ++ rt.binRepr v)
  else .error (utf8 "Unknown column type: " ++ natDecimal t)

/-- `encodeEdgeProperties`: walk the columns in declared order; skip a column
whose value is missing or `null`; otherwise emit `[ordinal u16][value]`. -/
def encodeProps (rt : JsRuntime) (cols : List ColumnMeta) (ps : Props) (i : Nat) :
    Except (List Nat) (List Nat) :=
  match cols with
  | [] => .ok []
  | c :: rest =>
      match propGet ps c.name with
      | none => encodeProps rt rest ps (i + 1)
      | some .vNull => encodeProps rt rest ps (i + 1)
      | some v => do
          let vb ← encodeValue rt c.type v
          let tail ← encodeProps rt rest ps (i + 1)
          .ok (u16le i ++ vb ++ tail)

/-- `encodeEdgeProperties(properties, columns)`: empty when there is no schema
or no property map. -/
def encodeEdgeProperties (rt : JsRuntime) (properties : Option Props)
    (columns : Option (List ColumnMeta)) : Except (List Nat) (List Nat) :=
  match columns, properties with
  | none, _ => .ok []
  | some [], _ => .ok []
  | some _, none => .ok []
  | some cols, some ps => encodeProps rt cols ps 0

/-- `buildEdgeRecord`: validate the indices, then emit
`[size u32 = 8 + len(P)][from u32][to u32][P]`.  Errors carry the source's
message text. -/
def buildEdgeRecord (rt : JsRuntime) (edge : EdgeInput) (columns : Option (List ColumnMeta))
    (featureCount : Nat) : Except (List Nat) (List Nat) :=
  if edge.fromIdx < 0 ∨ edge.fromIdx ≥ (featureCount : Int) then
    .error (utf8 "Invalid \x27from\x27 index: " ++ intDecimal edge.fromIdx ++
      utf8 ". Must be between 0 and " ++ intDecimal ((featureCount : Int) - 1))
  else if edge.toIdx < 0 ∨ edge.toIdx ≥ (featureCount : Int) then
    .error (utf8 "Invalid \x27to\x27 index: " ++ intDecimal edge.toIdx ++
      utf8 ". Must be between 0 and " ++ intDecimal ((featureCount : Int) - 1))
  else if edge.fromIdx = edge.toIdx then
    .error (utf8 "Self-loops are not allowed: from=" ++ intDecimal edge.fromIdx ++
      utf8 ", to=" ++ intDecimal edge.toIdx)
  else do
    let propsBytes ← encodeEdgeProperties rt edge.properties columns
    let size := 8 + propsBytes.length
    .ok (u32le size ++ u32le edge.fromIdx.toNat ++ u32le edge.toIdx.toNat ++ propsBytes)

/-- `adjacencyList.edges.map(buildEdgeRecord)`, first error wins. -/
def buildEdgeRecords (rt : JsRuntime) (edges : List EdgeInput)
    (columns : Option (List ColumnMeta)) (featureCount : Nat) :
    Except (List Nat) (List (List Nat)) :=
  match edges with
  | [] => .ok []
  | e :: rest => do
      let r ← buildEdgeRecord rt e columns featureCount
      let rs ← buildEdgeRecords rt rest columns featureCount
      .ok (r :: rs)

/-- `buildGraphSection`: `[len(H) u32][H][edge records…]`. -/
def buildGraphSection (rt : JsRuntime) (edges : List EdgeInput) (featureCount : Nat) :
    Except (List Nat) (List Nat) := do
  let edgeColumns := introspectEdgeColumns edges
  let graphHeader := buildGraphHeader edges.length edgeColumns
  let edgeBuffers ← buildEdgeRecords rt edges edgeColumns featureCount
  .ok (u32le graphHeader.length ++ graphHeader ++ edgeBuffers.flatten)

/-! ## Top-level serialize (`geojson/featurecollection.ts`)

The feature side is external to the graph codec: `buildHeader` and
`buildFeature` outputs are taken as given byte blocks (`headerBytes`,
`featureBytes`), and `introspectHeaderMeta` fixes `featuresCount =
features.length` and `indexNodeSize = 0`. -/

/-- The FGG magic (`constants.ts`). -/
def magicbytes : List Nat := [0x66, 0x67, 0x67, 0x01, 0x66, 0x67, 0x67, 0x00]

/-- The FGB magic (`constants.ts`). -/
def fgbMagicBytes : List Nat := [0x66, 0x67, 0x62, 0x03, 0x66, 0x67, 0x62, 0x00]

/-- `isValidMagicBytes`: first three bytes spell `fgg` or `fgb`. -/
def isValidMagicBytes (bytes : List Nat) : Bool :=
  (byteAt bytes 0 = 0x66 ∧ byteAt bytes 1 = 0x67 ∧ byteAt bytes 2 = 0x67) ∨
    (byteAt bytes 0 = 0x66 ∧ byteAt bytes 1 = 0x67 ∧ byteAt bytes 2 = 0x62)

/-- `serialize`: magic ++ header ++ features ++ optional graph section. -/
def serializeBytes (rt : JsRuntime) (headerBytes : List Nat)
    (featureBytes : List (List Nat)) (adjacencyList : Option (List EdgeInput)) :
    Except (List Nat) (List Nat) := do
  let graphSection ←
    match adjacencyList with
    | some edges => buildGraphSection rt edges featureBytes.length
    | none => .ok []
  .ok (magicbytes ++ headerBytes ++ featureBytes.flatten ++ graphSection)

/-! ## Reader (`graph.ts`) -/

/-- The column-list loop of `parseGraphHeader`: at relative position `pos`
read `[nameLen u16][name bytes][type u8]` per remaining column.  The name is
taken through `subarray` (clamped to the buffer); the type is the raw byte. -/
def parseColumns (bytes : List Nat) (offset : Nat) : Nat → Nat → List ColumnMeta
  | _, 0 => []
  | pos, n + 1 =>
      let nameLen := readU16 bytes (offset + pos)
      let name := (bytes.drop (offset + pos + 2)).take nameLen
      let t := byteAt bytes (offset + pos + 2 + nameLen)
      ⟨name, t⟩ :: parseColumns bytes offset (pos + 2 + nameLen + 1) n

/-- `parseGraphHeader`: `[edgeCount u32][columnCount u16][columns…]`;
`edgeColumns` is `null` when the parsed list is empty. -/
def parseGraphHeader (bytes : List Nat) (offset : Nat) : GraphHeaderMeta :=
  let edgeCount := readU32 bytes offset
  let columnCount := readU16 bytes (offset + 4)
  let edgeColumns := parseColumns bytes offset 6 columnCount
  ⟨edgeCount, if edgeColumns.isEmpty then none else some edgeColumns⟩

/-- One arm of the `switch (column.type)` in `parseEdgeProperties`: decode the
value that follows a just-read column ordinal at `offset`, returning the value
and the number of bytes it occupies after the two ordinal bytes.  `all` is the
unbounded `DataView` (the property region followed by the rest of the
underlying buffer), `props` the region itself: fixed-width getters and the
length prefix of variable-width values read through `all`, while the
`subarray` payload slices are clamped to `props`.  `Number(getBigInt64(...))`
and `Number(getBigUint64(...))` deliver the nearest double to the stored
64-bit integer; `JSON.parse` of a Json payload is represented by the payload
text.  A type byte outside the enum raises `Unknown column type` exactly as
the source\x27s `default` arm does. -/
def decodeStep (all props : List Nat) (offset : Nat) (c : ColumnMeta) :
    Except (List Nat) (PropValue × Nat) :=
  if c.type = ctBool then .ok (.vBool (byteAt all (offset + 2) ≠ 0), 1)
  else if c.type = ctByte then .ok (.vInt (signed 8 (byteAt all (offset + 2))), 1)
  else if c.type = ctUByte then .ok (.vInt (byteAt all (offset + 2)), 1)
  else if c.type = ctShort then .ok (.vInt (signed 16 (readU16 all (offset + 2))), 2)
  else if c.type = ctUShort then .ok (.vInt (readU16 all (offset + 2)), 2)
  else if c.type = ctInt then .ok (.vInt (signed 32 (readU32 all (offset + 2))), 4)
  else if c.type = ctUInt then .ok (.vInt (readU32 all (offset + 2)), 4)
  else if c.type = ctLong then
    .ok (.vInt (nearestDouble (signed 64 (readU64 all (offset + 2)))), 8)
  else if c.type = ctULong then .ok (.vInt (nearestDouble (readU64 all (offset + 2))), 8)
  else if c.type = ctFloat then .ok (.vF32 (readU32 all (offset + 2)), 4)
  else if c.type = ctDouble then .ok (.vF64 (readU64 all (offset + 2)), 8)
  else if c.type = ctDateTime ∨ c.type = ctString then
    .ok (.vStr ((props.drop (offset + 2 + 4)).take (readU32 all (offset + 2))),
      4 + readU32 all (offset + 2))
  else if c.type = ctJson then
    .ok (.vJson ((props.drop (offset + 2 + 4)).take (readU32 all (offset + 2))),
      4 + readU32 all (offset + 2))
  else if c.type = ctBinary then
    .ok (.vBin ((props.drop (offset + 2 + 4)).take (readU32 all (offset + 2))),
      4 + readU32 all (offset + 2))
  else .error (utf8 "Unknown column type: " ++ natDecimal c.type)

/-- The `while` loop of `parseEdgeProperties`: while `offset` is inside the
region, read a column ordinal; stop (`break`) if it is out of range, else
decode the value by `decodeStep` and store it under the column\x27s name.
The column is `columns[colIndex]`, written with a default that the bound
guard makes unreachable.

The `fuel` argument is an artifact of embedding the `while` loop: every
iteration advances `offset` by at least three, so any fuel exceeding
`props.length - offset` makes the `0` case unreachable (`ppGo_fuel_congr`);
`parseEdgeProperties` supplies `props.length + 1`. -/
def ppGo (props tail : List Nat) (cols : List ColumnMeta) :
    Nat → Nat → Props → Except (List Nat) Props
  | 0, _, acc => .ok acc
  | fuel + 1, offset, acc =>
    if offset < props.length then
      if readU16 (props ++ tail) offset < cols.length then
        match decodeStep (props ++ tail) props offset
            (cols.getD (readU16 (props ++ tail) offset) ⟨[], 0⟩) with
        | .error e => .error e
        | .ok (v, w) =>
            ppGo props tail cols fuel (offset + 2 + w)
              (propSet acc (cols.getD (readU16 (props ++ tail) offset) ⟨[], 0⟩).name v)
      else .ok acc
    else .ok acc

/-- `parseEdgeProperties(bytes, columns)` on a region with the given tail. -/
def parseEdgeProperties (props tail : List Nat) (columns : Option (List ColumnMeta)) :
    Except (List Nat) Props :=
  match columns with
  | none => .ok []
  | some cols => if cols.isEmpty ∨ props.isEmpty then .ok [] else ppGo props tail cols (props.length + 1) 0 []

/-- `parseEdge`: `from`/`to` from the first eight bytes of the record body,
properties from the next `size - 8` bytes when a schema is present. -/
def parseEdge (bytes : List Nat) (offset size : Nat) (columns : Option (List ColumnMeta)) :
    Except (List Nat) Edge :=
  let f := readU32 bytes offset
  let t := readU32 bytes (offset + 4)
  match columns with
  | some cols =>
      if ¬cols.isEmpty ∧ size > 8 then
        let props := (bytes.drop (offset + 8)).take (size - 8)
        let tail := bytes.drop (offset + 8 + props.length)
        (parseEdgeProperties props tail (some cols)).map fun ps => ⟨f, t, ps⟩
      else .ok ⟨f, t, []⟩
  | none => .ok ⟨f, t, []⟩

/-- `parseGraphSectionHeader`: skip the `[header-size u32]` prefix and parse
the graph header. -/
def parseGraphSectionHeader (bytes : List Nat) (offset : Nat) : GraphHeaderMeta :=
  parseGraphHeader bytes (offset + 4)

/-- The edge loop of `parseGraphSection`: `edgeCount` size-prefixed records. -/
def parseEdgesLoop (bytes : List Nat) (columns : Option (List ColumnMeta)) :
    Nat → Nat → Except (List Nat) (List Edge)
  | _, 0 => .ok []
  | offset, n + 1 => do
      let edgeSize := readU32 bytes offset
      let e ← parseEdge bytes (offset + 4) edgeSize columns
      let rest ← parseEdgesLoop bytes columns (offset + 4 + edgeSize) n
      .ok (e :: rest)

/-- `parseGraphSection`: header size, header, then `edgeCount` edge records. -/
def parseGraphSection (bytes : List Nat) (offset : Nat) : Except (List Nat) AdjacencyList :=
  let headerSize := readU32 bytes offset
  let gh := parseGraphHeader bytes (offset + 4)
  (parseEdgesLoop bytes gh.edgeColumns (offset + 4 + headerSize) gh.edgeCount).map (⟨·⟩)

/-- The yield loop of `deserializeGraphStream` (the async generator); the
sequence of yielded edges, or the error that terminates the iteration. -/
def streamEdgesLoop (bytes : List Nat) (columns : Option (List ColumnMeta)) :
    Nat → Nat → Except (List Nat) (List Edge)
  | _, 0 => .ok []
  | offset, n + 1 => do
      let edgeSize := readU32 bytes offset
      let e ← parseEdge bytes (offset + 4) edgeSize columns
      let rest ← streamEdgesLoop bytes columns (offset + 4 + edgeSize) n
      .ok (e :: rest)

/-- `deserializeGraphStream(bytes, graphOffset)`: the complete sequence the
generator produces. -/
def deserializeGraphStream (bytes : List Nat) (graphOffset : Nat) :
    Except (List Nat) (List Edge) :=
  let headerSize := readU32 bytes graphOffset
  let gh := parseGraphHeader bytes (graphOffset + 4)
  streamEdgesLoop bytes gh.edgeColumns (graphOffset + 4 + headerSize) gh.edgeCount

/-! ## Offset locator and top level (`geojson/featurecollection.ts`)

The external feature codec is abstracted: `calcTreeSize` (from
`packedrtree.ts`) is an arbitrary function, the feature-header meta obtained
through `fromByteBuffer` is an arbitrary `FeaturesHeaderMeta` argument, and
batch feature materialization (`genericDeserialize`) is an arbitrary total
function on the buffer. -/

/-- The fields of the feature header meta the graph codec reads. -/
structure FeaturesHeaderMeta where
  featuresCount : Nat
  indexNodeSize : Nat

deriving DecidableEq, Repr

/-- The feature-consuming loop of `calculateFeaturesEndOffset`: while
features remain and `offset < bytes.length`, consume `4 + featureLength`. -/
def featuresWalk (bytes : List Nat) : Nat → Nat → Nat
  | offset, 0 => offset
  | offset, n + 1 =>
      if offset < bytes.length then featuresWalk bytes (offset + 4 + readU32 bytes offset) n
      else offset

/-- `calculateFeaturesEndOffset`: header length at offset 8, optional packed
R-tree of externally computed size, then the feature walk. -/
def calculateFeaturesEndOffset (calcTreeSize : Nat → Nat → Nat) (bytes : List Nat)
    (headerMeta : FeaturesHeaderMeta) : Nat :=
  let headerLength := readU32 bytes 8
  let start := 8 + 4 + headerLength
  let start :=
    if headerMeta.indexNodeSize > 0 then
      start + calcTreeSize headerMeta.featuresCount headerMeta.indexNodeSize
    else start
  featuresWalk bytes start headerMeta.featuresCount

structure DeserializeGraphResult (F : Type) where
  features : List F
  adjacencyList : AdjacencyList

deriving DecidableEq, Repr

/-- `deserialize(bytes, metaFn?)`, with the feature side abstracted.  The
graph meta passed to the observer and the observer call itself are modelled
separately by `deserializeEvents`; the value result is what the promise
resolves to, or the error it rejects with. -/
def deserialize {F : Type} (calcTreeSize : Nat → Nat → Nat)
    (iterateFeatures : List Nat → List F) (bytes : List Nat)
    (headerMeta : FeaturesHeaderMeta) : Except (List Nat) (DeserializeGraphResult F) :=
  let fEnd := calculateFeaturesEndOffset calcTreeSize bytes headerMeta
  let feats := iterateFeatures bytes
  if fEnd < bytes.length then (parseGraphSection bytes fEnd).map fun al => ⟨feats, al⟩
  else .ok ⟨feats, ⟨[]⟩⟩

/-- `deserializeGraphEdges(bytes)`: empty when no graph section, otherwise
the stream from the located offset. -/
def deserializeGraphEdges (calcTreeSize : Nat → Nat → Nat) (bytes : List Nat)
    (headerMeta : FeaturesHeaderMeta) : Except (List Nat) (List Edge) :=
  let fEnd := calculateFeaturesEndOffset calcTreeSize bytes headerMeta
  if fEnd ≥ bytes.length then .ok []
  else deserializeGraphStream bytes fEnd

/-- The observable steps of `deserialize`, in source order: feature header
decoded, graph section header parsed (when a graph section exists), the
observer callback (when supplied) receiving `{features, graph}`, then each
feature materialized, then the edges (none when the graph parse fails, which
rejects the promise). -/
inductive DeserializeEvent (F : Type) where
  | featureHeaderParsed (meta : FeaturesHeaderMeta)
  | graphHeaderParsed (meta : GraphHeaderMeta)
  | observerCalled (features : FeaturesHeaderMeta) (graph : Option GraphHeaderMeta)
  | featureMaterialized (f : F)
  | edgeMaterialized (e : Edge)

deriving DecidableEq, Repr

/-- The event trace of one `deserialize` run. -/
def deserializeEvents {F : Type} (calcTreeSize : Nat → Nat → Nat)
    (iterateFeatures : List Nat → List F) (bytes : List Nat)
    (headerMeta : FeaturesHeaderMeta) (observerProvided : Bool) :
    List (DeserializeEvent F) :=
  let fEnd := calculateFeaturesEndOffset calcTreeSize bytes headerMeta
  let hasGraph := fEnd < bytes.length
  let graphMeta := if hasGraph then some (parseGraphSectionHeader bytes fEnd) else none
  [DeserializeEvent.featureHeaderParsed headerMeta] ++
    (match graphMeta with
     | some gm => [DeserializeEvent.graphHeaderParsed gm]
     | none => []) ++
    (if observerProvided then [DeserializeEvent.observerCalled headerMeta graphMeta] else []) ++
    (iterateFeatures bytes).map DeserializeEvent.featureMaterialized ++
    (match (if hasGraph then (parseGraphSection bytes fEnd).map AdjacencyList.edges else .ok []) with
     | .ok es => es.map DeserializeEvent.edgeMaterialized
     | .error _ => [])

/-- The write-side constraints on one edge. -/
def validEdge (featureCount : Nat) (e : EdgeInput) : Prop :=
  0 ≤ e.fromIdx ∧ e.fromIdx < (featureCount : Int) ∧ 0 ≤ e.toIdx ∧
    e.toIdx < (featureCount : Int) ∧ e.fromIdx ≠ e.toIdx

instance (featureCount : Nat) (e : EdgeInput) : Decidable (validEdge featureCount e) := by
  unfold validEdge
  infer_instance

/-- A size-prefixed feature frame: at least the four length bytes, and the
length prefix matching the body. -/
def framedFeature (fb : List Nat) : Prop :=
  4 ≤ fb.length ∧ readU32 fb 0 = fb.length - 4

instance (fb : List Nat) : Decidable (framedFeature fb) := by
  unfold framedFeature
  infer_instance

/-! ## Round-trip machinery for the property codec -/

/-- Caller-shaped values: JavaScript numbers offered to `serialize` are
represented canonically by their binary64 bits (`vF64`); the `vInt`/`vF32`
representations only arise from decoding. -/
def isInputValue : PropValue → Bool
  | .vInt _ => false
  | .vF32 _ => false
  | _ => true

/-- Machine-field bounds: bit patterns fit 64 bits, variable-length payloads
fit their u32 length prefix. -/
def wfValue : PropValue → Bool
  | .vF64 bits => bits < 2 ^ 64
  | .vStr s => s.length < 2 ^ 32
  | .vJson t => t.length < 2 ^ 32
  | .vBin b => b.length < 2 ^ 32
  | _ => true

/-- Every value the property map holds under a schema column has the type the
schema declares for it (the inferred type of the value equals the column
type), is caller-shaped, and fits its binary fields. -/
def EncodesCleanly (cols : List ColumnMeta) (ps : Props) : Prop :=
  ∀ c ∈ cols, ∀ v, propGet ps c.name = some v → v ≠ .vNull →
    valueToColumnType v = c.type ∧ isInputValue v = true ∧ wfValue v = true

instance (cols : List ColumnMeta) (ps : Props) : Decidable (EncodesCleanly cols ps) := by
  unfold EncodesCleanly
  infer_instance

/-- The claim's transform of an edge property map: walk the schema columns in
order, keep the non-null present values (missing and null properties omitted,
out-of-schema keys dropped). -/
def schemaProjection (cols : List ColumnMeta) (ps : Props) : Props :=
  cols.filterMap fun c =>
    match propGet ps c.name with
    | some v => if v = .vNull then none else some (c.name, v)
    | none => none

/-- Recognizer for the observer-callback event. -/
def isObserverEvent {F : Type} : DeserializeEvent F → Bool
  | .observerCalled _ _ => true
  | _ => false

/-- Recognizer for the header-parsing events. -/
def isHeaderEvent {F : Type} : DeserializeEvent F → Bool
  | .featureHeaderParsed _ => true
  | .graphHeaderParsed _ => true
  | _ => false

/-- Recognizer for the materialization events. -/
def isMaterializeEvent {F : Type} : DeserializeEvent F → Bool
  | .featureMaterialized _ => true
  | .edgeMaterialized _ => true
  | _ => false

/-- The length of a successful `encodeEdgeProperties` run (zero on failure);
used to bound the record sizes of the round-trip statement. -/
def encodedPropsLen (rt : JsRuntime) (props : Option Props)
    (cols : Option (List ColumnMeta)) : Nat :=
  match encodeEdgeProperties rt props cols with
  | .ok pb => pb.length
  | .error _ => 0

/-! ## Theorems -/

theorem byteAt_append_left (a b : List Nat) (i : Nat) (h : i < a.length) :
    byteAt (a ++ b) i = byteAt a i := by
  simp [byteAt, List.getD_eq_getElem?_getD, List.getElem?_append_left h]

theorem byteAt_append_right (a b : List Nat) (i : Nat) :
    byteAt (a ++ b) (a.length + i) = byteAt b i := by
  simp [byteAt, List.getD_eq_getElem?_getD, List.getElem?_append_right (Nat.le_add_right _ _)]

theorem readU16_append (a b : List Nat) :
    readU16 (a ++ b) a.length = readU16 b 0 := by
  have h0 := byteAt_append_right a b 0
  have h1 := byteAt_append_right a b 1
  simp only [Nat.add_zero] at h0
  simp [readU16, h0, h1]

theorem readU32_append (a b : List Nat) :
    readU32 (a ++ b) a.length = readU32 b 0 := by
  have h0 := byteAt_append_right a b 0
  have h1 := byteAt_append_right a b 1
  have h2 := byteAt_append_right a b 2
  have h3 := byteAt_append_right a b 3
  simp only [Nat.add_zero] at h0
  simp [readU32, h0, h1, h2, h3]

theorem readU64_append (a b : List Nat) :
    readU64 (a ++ b) a.length = readU64 b 0 := by
  have h0 := byteAt_append_right a b 0
  have h1 := byteAt_append_right a b 1
  have h2 := byteAt_append_right a b 2
  have h3 := byteAt_append_right a b 3
  have h4 := byteAt_append_right a b 4
  have h5 := byteAt_append_right a b 5
  have h6 := byteAt_append_right a b 6
  have h7 := byteAt_append_right a b 7
  simp only [Nat.add_zero] at h0
  simp [readU64, h0, h1, h2, h3, h4, h5, h6, h7]

theorem readU16_u16le (n : Nat) (rest : List Nat) :
    readU16 (u16le n ++ rest) 0 = n % 2 ^ 16 := by
  simp [readU16, u16le, byteAt]
  omega

theorem readU32_u32le (n : Nat) (rest : List Nat) :
    readU32 (u32le n ++ rest) 0 = n % 2 ^ 32 := by
  simp [readU32, u32le, byteAt]
  omega

theorem readU64_u64le (n : Nat) (rest : List Nat) :
    readU64 (u64le n ++ rest) 0 = n % 2 ^ 64 := by
  simp [readU64, u64le, byteAt]
  omega

theorem u16le_length (n : Nat) : (u16le n).length = 2 := rfl

theorem u32le_length (n : Nat) : (u32le n).length = 4 := rfl

theorem u64le_length (n : Nat) : (u64le n).length = 8 := rfl

/-! ## Generic byte-access lemmas -/

theorem byteAt_at (pre : List Nat) (b : Nat) (rest : List Nat) :
    byteAt (pre ++ b :: rest) pre.length = b := by
  have h := byteAt_append_right pre (b :: rest) 0
  simpa [byteAt] using h

theorem readU16_at (pre : List Nat) (n : Nat) (rest : List Nat) :
    readU16 (pre ++ (u16le n ++ rest)) pre.length = n % 2 ^ 16 := by
  rw [readU16_append, readU16_u16le]

theorem readU32_at (pre : List Nat) (n : Nat) (rest : List Nat) :
    readU32 (pre ++ (u32le n ++ rest)) pre.length = n % 2 ^ 32 := by
  rw [readU32_append, readU32_u32le]

theorem readU64_at (pre : List Nat) (n : Nat) (rest : List Nat) :
    readU64 (pre ++ (u64le n ++ rest)) pre.length = n % 2 ^ 64 := by
  rw [readU64_append, readU64_u64le]

theorem drop_at (pre rest : List Nat) : (pre ++ rest).drop pre.length = rest :=
  List.drop_left pre rest

theorem take_at (pre rest : List Nat) : (pre ++ rest).take pre.length = pre :=
  List.take_left pre rest

/-! ## Evaluation lemmas for the property-decoding loop -/

theorem ppGo_terminal (props tail : List Nat) (cols : List ColumnMeta)
    (fuel offset : Nat) (acc : Props) (h : props.length ≤ offset) :
    ppGo props tail cols fuel offset acc = .ok acc := by
  cases fuel with
  | zero => rfl
  | succ fuel => rw [ppGo]; rw [if_neg (by omega)]

theorem ppGo_stop (props tail : List Nat) (cols : List ColumnMeta)
    (fuel offset : Nat) (acc : Props)
    (hstop : cols.length ≤ readU16 (props ++ tail) offset) :
    ppGo props tail cols fuel offset acc = .ok acc := by
  cases fuel with
  | zero => rfl
  | succ fuel =>
      rw [ppGo]
      by_cases hlt : offset < props.length
      · rw [if_pos hlt, if_neg (by omega)]
      · rw [if_neg hlt]

theorem ppGo_step (props tail : List Nat) (cols : List ColumnMeta)
    (fuel offset : Nat) (acc : Props) (v : PropValue) (w : Nat)
    (hlt : offset < props.length)
    (hci : readU16 (props ++ tail) offset < cols.length)
    (hdec : decodeStep (props ++ tail) props offset
      (cols.getD (readU16 (props ++ tail) offset) ⟨[], 0⟩) = .ok (v, w)) :
    ppGo props tail cols (fuel + 1) offset acc =
      ppGo props tail cols fuel (offset + 2 + w)
        (propSet acc (cols.getD (readU16 (props ++ tail) offset) ⟨[], 0⟩).name v) := by
  rw [ppGo, if_pos hlt, if_pos hci, hdec]

theorem ppGo_fuel_congr (props tail : List Nat) (cols : List ColumnMeta) :
    ∀ (f₁ f₂ offset : Nat) (acc : Props),
      props.length < f₁ + offset → props.length < f₂ + offset →
      ppGo props tail cols f₁ offset acc = ppGo props tail cols f₂ offset acc := by
  intro f₁
  induction f₁ with
  | zero =>
      intro f₂ offset acc h₁ h₂
      rw [ppGo_terminal _ _ _ _ _ _ (by omega), ppGo_terminal _ _ _ _ _ _ (by omega)]
  | succ f₁ ih =>
      intro f₂ offset acc h₁ h₂
      cases f₂ with
      | zero =>
          rw [ppGo_terminal _ _ _ _ _ _ (by omega), ppGo_terminal _ _ _ _ _ _ (by omega)]
      | succ f₂ =>
          rw [ppGo]
          conv_rhs => rw [ppGo]
          by_cases hlt : offset < props.length
          · rw [if_pos hlt, if_pos hlt]
            by_cases hci : readU16 (props ++ tail) offset < cols.length
            · rw [if_pos hci, if_pos hci]
              cases hd : decodeStep (props ++ tail) props offset
                  (cols.getD (readU16 (props ++ tail) offset) ⟨[], 0⟩) with
              | error e => rfl
              | ok vw =>
                  obtain ⟨v, w⟩ := vw
                  exact ih f₂ (offset + 2 + w) _ (by omega) (by omega)
            · rw [if_neg hci, if_neg hci]
          · rw [if_neg hlt, if_neg hlt]

theorem decodeStep_bool (all props : List Nat) (offset : Nat) (c : ColumnMeta)
    (hc : c.type = ctBool) :
    decodeStep all props offset c = .ok (.vBool (byteAt all (offset + 2) ≠ 0), 1) := by
  simp [decodeStep, hc]

theorem decodeStep_long (all props : List Nat) (offset : Nat) (c : ColumnMeta)
    (hc : c.type = ctLong) :
    decodeStep all props offset c =
      .ok (.vInt (nearestDouble (signed 64 (readU64 all (offset + 2)))), 8) := by
  simp [decodeStep, hc, ctBool, ctByte, ctUByte, ctShort, ctUShort, ctInt, ctUInt, ctLong]

theorem decodeStep_ulong (all props : List Nat) (offset : Nat) (c : ColumnMeta)
    (hc : c.type = ctULong) :
    decodeStep all props offset c = .ok (.vInt (nearestDouble (readU64 all (offset + 2))), 8) := by
  simp [decodeStep, hc, ctBool, ctByte, ctUByte, ctShort, ctUShort, ctInt, ctUInt, ctLong, ctULong]

theorem decodeStep_double (all props : List Nat) (offset : Nat) (c : ColumnMeta)
    (hc : c.type = ctDouble) :
    decodeStep all props offset c = .ok (.vF64 (readU64 all (offset + 2)), 8) := by
  simp [decodeStep, hc, ctBool, ctByte, ctUByte, ctShort, ctUShort, ctInt, ctUInt, ctLong,
    ctULong, ctFloat, ctDouble]

theorem decodeStep_string (all props : List Nat) (offset : Nat) (c : ColumnMeta)
    (hc : c.type = ctString) :
    decodeStep all props offset c =
      .ok (.vStr ((props.drop (offset + 2 + 4)).take (readU32 all (offset + 2))),
        4 + readU32 all (offset + 2)) := by
  simp [decodeStep, hc, ctBool, ctByte, ctUByte, ctShort, ctUShort, ctInt, ctUInt, ctLong,
    ctULong, ctFloat, ctDouble, ctString, ctDateTime]

theorem decodeStep_json (all props : List Nat) (offset : Nat) (c : ColumnMeta)
    (hc : c.type = ctJson) :
    decodeStep all props offset c =
      .ok (.vJson ((props.drop (offset + 2 + 4)).take (readU32 all (offset + 2))),
        4 + readU32 all (offset + 2)) := by
  simp [decodeStep, hc, ctBool, ctByte, ctUByte, ctShort, ctUShort, ctInt, ctUInt, ctLong,
    ctULong, ctFloat, ctDouble, ctString, ctDateTime, ctJson]

theorem decodeStep_binary (all props : List Nat) (offset : Nat) (c : ColumnMeta)
    (hc : c.type = ctBinary) :
    decodeStep all props offset c =
      .ok (.vBin ((props.drop (offset + 2 + 4)).take (readU32 all (offset + 2))),
        4 + readU32 all (offset + 2)) := by
  simp [decodeStep, hc, ctBool, ctByte, ctUByte, ctShort, ctUShort, ctInt, ctUInt, ctLong,
    ctULong, ctFloat, ctDouble, ctString, ctDateTime, ctJson, ctBinary]

/-- Decoding a region holding a single property tagged with ordinal 0 for a
one-column schema: the decoded map holds exactly that value. -/
theorem parseSingle (name : List Nat) (t : Nat) (payload : List Nat) (v : PropValue) (w : Nat)
    (hw : w = payload.length)
    (hdec : decodeStep ((u16le 0 ++ payload) ++ []) (u16le 0 ++ payload) 0 ⟨name, t⟩ =
      .ok (v, w)) :
    parseEdgeProperties (u16le 0 ++ payload) [] (some [⟨name, t⟩]) = .ok [(name, v)] := by
  have hlen : (u16le 0 ++ payload).length = 2 + payload.length := by
    simp [u16le]
    omega
  have h1 : readU16 ((u16le 0 ++ payload) ++ []) 0 = 0 := by
    rw [List.append_nil]
    simpa using readU16_u16le 0 payload
  have h3 : decodeStep ((u16le 0 ++ payload) ++ []) (u16le 0 ++ payload) 0
      ((([⟨name, t⟩] : List ColumnMeta)).getD
        (readU16 ((u16le 0 ++ payload) ++ []) 0) ⟨[], 0⟩) = .ok (v, w) := by
    rw [h1]
    exact hdec
  rw [parseEdgeProperties]
  rw [if_neg (by simp [u16le])]
  rw [ppGo_step (u16le 0 ++ payload) [] [⟨name, t⟩] (u16le 0 ++ payload).length 0 [] v w
    (by omega) (by rw [h1]; simp) h3]
  rw [ppGo_terminal _ _ _ _ _ _ (by omega)]
  rw [h1]
  rfl

/-! ## Claims -/

/-- **C10.**  If the decoded graph header declares zero columns then
`edgeColumns` is `null`, and `parseEdge` — for every record, including one
whose declared size exceeds 8 and therefore carries property bytes — returns
an edge with its `from` and `to` indices and an empty property map, silently
ignoring any property bytes without raising an error. -/
theorem claim_C10 (hdrBytes : List Nat) (hoff : Nat) (bytes : List Nat) (offset size : Nat)
    (cols : Option (List ColumnMeta))
    (hzero : readU16 hdrBytes (hoff + 4) = 0)
    (hcols : cols = none ∨ cols = some []) :
    (parseGraphHeader hdrBytes hoff).edgeColumns = none ∧
      parseEdge bytes offset size cols =
        .ok ⟨readU32 bytes offset, readU32 bytes (offset + 4), []⟩ := by
  constructor
  · simp [parseGraphHeader, hzero, parseColumns]
  · rcases hcols with h | h <;> simp [parseEdge, h]

/-- Witness for `claim_C10`: a header with column count zero and a record of
declared size 11 whose three property bytes are ignored. -/
theorem claim_C10_witness :
    (parseGraphHeader (u32le 3 ++ u16le 0) 0).edgeColumns = none ∧
      parseEdge ([7, 7, 7, 7] ++ u32le 5 ++ u32le 6 ++ [1, 2, 3]) 4 11 none =
        .ok ⟨5, 6, []⟩ := by
  have h := claim_C10 (u32le 3 ++ u16le 0) 0 ([7, 7, 7, 7] ++ u32le 5 ++ u32le 6 ++ [1, 2, 3])
    4 11 none (by decide) (Or.inl rfl)
  refine ⟨h.1, ?_⟩
  rw [h.2]
  decide

/-- **C7 (amended).**  The decoder performs no size validation and raises no
`InvalidEdgeSize`: a record whose declared size is at most 8 (in particular
any size below 8) parses successfully to the `from`/`to` indices read from
the record body and an empty property map, and a declared region running past
the containing buffer is clamped rather than rejected.  `parseEdge` takes no
`featuresCount` input, so indices are indeed not revalidated. -/
theorem claim_C7 (bytes : List Nat) (offset size : Nat) (columns : Option (List ColumnMeta))
    (hsize : size ≤ 8) :
    parseEdge bytes offset size columns =
      .ok ⟨readU32 bytes offset, readU32 bytes (offset + 4), []⟩ := by
  match columns with
  | none => simp [parseEdge]
  | some cols =>
      rw [parseEdge, if_neg]
      intro h
      omega

/-- Witness for `claim_C7`: a record of declared size 0 parses fine. -/
theorem claim_C7_witness :
    parseEdge (u32le 0 ++ u32le 7 ++ u32le 9) 4 0 (some [⟨[119], ctBool⟩]) = .ok ⟨7, 9, []⟩ := by
  have h := claim_C7 (u32le 0 ++ u32le 7 ++ u32le 9) 4 0 (some [⟨[119], ctBool⟩]) (by omega)
  rw [h]
  decide

/-- **C7 counterexample.**  The claim demands failure with `InvalidEdgeSize`
when a record declares `size < 8`; instead a whole-section parse containing a
single edge of declared size 0 succeeds (no error of any kind), returning the
`from`/`to` read from the bytes after the size prefix. -/
theorem claim_C7_counterexample :
    parseGraphSection (u32le 6 ++ u32le 1 ++ u16le 0 ++ u32le 0 ++ u32le 7 ++ u32le 9) 0 =
      .ok ⟨[⟨7, 9, []⟩]⟩ := by
  decide

/-- **C8 (amended).**  Long and ULong values are exposed through
`Number(BigInt)`: decoding yields the double nearest to the stored 64-bit
integer, so a stored value is returned exactly if and only if it is
representable as an IEEE-754 binary64 (`nearestDouble v = v`, which holds in
particular whenever `|v| ≤ 2^53`).  Part one: the Long encode/decode round
trip is the identity under that hypothesis; part two: a decoded ULong is
`nearestDouble` of the stored unsigned value. -/
theorem claim_C8 :
    (∀ (rt : JsRuntime) (name : List Nat) (i : Int) (vb : List Nat),
      -(2 ^ 63) ≤ i → i < 2 ^ 63 → nearestDouble i = i →
      encodeValue rt ctLong (.vInt i) = .ok vb →
      parseEdgeProperties (u16le 0 ++ vb) [] (some [⟨name, ctLong⟩]) =
        .ok [(name, .vInt i)]) ∧
    (∀ (name : List Nat) (n : Nat), n < 2 ^ 64 →
      parseEdgeProperties (u16le 0 ++ u64le n) [] (some [⟨name, ctULong⟩]) =
        .ok [(name, .vInt (nearestDouble (n : Int)))]) := by
  constructor
  · intro rt name i vb hlo hhi hrep henc
    have henc2 : encodeValue rt ctLong (.vInt i) = .ok (u64le (i % 2 ^ 64).toNat) := by
      simp [encodeValue, ctBool, ctShort, ctUShort, ctInt, ctUInt, ctLong]
    rw [henc2] at henc
    injection henc with henc
    subst henc
    have hr64 : readU64 ((u16le 0 ++ u64le (i % 2 ^ 64).toNat) ++ []) (0 + 2) =
        (i % 2 ^ 64).toNat := by
      rw [List.append_nil]
      have h := readU64_at (u16le 0) (i % 2 ^ 64).toNat []
      simp only [List.append_nil] at h
      rw [show (u16le 0).length = 2 from rfl] at h
      rw [show (0 + 2 : Nat) = 2 from rfl, h]
      omega
    refine parseSingle name ctLong _ _ 8 ?_ ?_
    · exact (u64le_length _).symm
    · rw [decodeStep_long _ _ _ _ rfl, hr64]
      have hs : signed 64 (i % 2 ^ 64).toNat = i := by
        unfold signed
        split <;> omega
      rw [hs, hrep]
  · intro name n hn
    have hr64 : readU64 ((u16le 0 ++ u64le n) ++ []) (0 + 2) = n := by
      rw [List.append_nil]
      have h := readU64_at (u16le 0) n []
      simp only [List.append_nil] at h
      rw [show (u16le 0).length = 2 from rfl] at h
      rw [show (0 + 2 : Nat) = 2 from rfl, h]
      omega
    refine parseSingle name ctULong _ _ 8 ?_ ?_
    · exact (u64le_length _).symm
    · rw [decodeStep_ulong _ _ _ _ rfl, hr64]

/-- Witness for `claim_C8`: the Long value 42 and the ULong value `2^60`
round-trip exactly (both are representable doubles). -/
theorem claim_C8_witness :
    parseEdgeProperties (u16le 0 ++ u64le 42) [] (some [⟨[113], ctLong⟩]) =
      .ok [([113], .vInt 42)] ∧
    parseEdgeProperties (u16le 0 ++ u64le (2 ^ 60)) [] (some [⟨[114], ctULong⟩]) =
      .ok [([114], .vInt (nearestDouble ((2 ^ 60 : Nat) : Int)))] :=
  ⟨claim_C8.1 ⟨fun _ => [], fun _ => 0, id, id, fun _ => [], fun _ => []⟩ [113] 42 (u64le 42)
      (by decide) (by decide) (by decide) (by decide),
    claim_C8.2 [114] (2 ^ 60) (by norm_num)⟩

/-- `encodeValue` succeeds unconditionally on every column type the schema
inference can produce. -/
theorem encodeValue_introspectable_ok (rt : JsRuntime) (t : Nat) (v : PropValue)
    (ht : t = ctBool ∨ t = ctDouble ∨ t = ctString ∨ t = ctJson ∨ t = ctBinary) :
    ∃ bs, encodeValue rt t v = .ok bs := by
  rcases ht with h | h | h | h | h <;> subst h
  · simp [encodeValue]
  · simp [encodeValue, ctBool, ctShort, ctUShort, ctInt, ctUInt, ctLong, ctFloat, ctDouble]
  · simp [encodeValue, ctBool, ctShort, ctUShort, ctInt, ctUInt, ctLong, ctFloat, ctDouble,
      ctDateTime, ctString]
  · simp [encodeValue, ctBool, ctShort, ctUShort, ctInt, ctUInt, ctLong, ctFloat, ctDouble,
      ctDateTime, ctString, ctJson]
  · cases v <;>
      simp [encodeValue, ctBool, ctShort, ctUShort, ctInt, ctUInt, ctLong, ctFloat, ctDouble,
        ctDateTime, ctString, ctJson, ctBinary]

/-- `encodeProps` succeeds on a schema of introspectable column types. -/
theorem encodeProps_ok (rt : JsRuntime) (cols : List ColumnMeta) (ps : Props)
    (htypes : ∀ c ∈ cols, c.type = ctBool ∨ c.type = ctDouble ∨ c.type = ctString ∨
      c.type = ctJson ∨ c.type = ctBinary) :
    ∀ i, ∃ bs, encodeProps rt cols ps i = .ok bs := by
  induction cols with
  | nil => exact fun i => ⟨[], rfl⟩
  | cons c rest ih =>
      intro i
      have hc := htypes c (by simp)
      have hrest := ih (fun d hd => htypes d (by simp [hd]))
      obtain ⟨bs, hbs⟩ := hrest (i + 1)
      rw [encodeProps]
      match hg : propGet ps c.name with
      | none => exact ⟨bs, by simp [hbs]⟩
      | some .vNull => exact ⟨bs, by simp [hbs]⟩
      | some (.vBool b) =>
          obtain ⟨vb, hvb⟩ := encodeValue_introspectable_ok rt c.type (.vBool b) hc
          exact ⟨u16le i ++ vb ++ bs, by simp [hvb, hbs, Bind.bind, Except.bind]⟩
      | some (.vInt j) =>
          obtain ⟨vb, hvb⟩ := encodeValue_introspectable_ok rt c.type (.vInt j) hc
          exact ⟨u16le i ++ vb ++ bs, by simp [hvb, hbs, Bind.bind, Except.bind]⟩
      | some (.vF64 b) =>
          obtain ⟨vb, hvb⟩ := encodeValue_introspectable_ok rt c.type (.vF64 b) hc
          exact ⟨u16le i ++ vb ++ bs, by simp [hvb, hbs, Bind.bind, Except.bind]⟩
      | some (.vF32 b) =>
          obtain ⟨vb, hvb⟩ := encodeValue_introspectable_ok rt c.type (.vF32 b) hc
          exact ⟨u16le i ++ vb ++ bs, by simp [hvb, hbs, Bind.bind, Except.bind]⟩
      | some (.vStr s2) =>
          obtain ⟨vb, hvb⟩ := encodeValue_introspectable_ok rt c.type (.vStr s2) hc
          exact ⟨u16le i ++ vb ++ bs, by simp [hvb, hbs, Bind.bind, Except.bind]⟩
      | some (.vJson s2) =>
          obtain ⟨vb, hvb⟩ := encodeValue_introspectable_ok rt c.type (.vJson s2) hc
          exact ⟨u16le i ++ vb ++ bs, by simp [hvb, hbs, Bind.bind, Except.bind]⟩
      | some (.vBin s2) =>
          obtain ⟨vb, hvb⟩ := encodeValue_introspectable_ok rt c.type (.vBin s2) hc
          exact ⟨u16le i ++ vb ++ bs, by simp [hvb, hbs, Bind.bind, Except.bind]⟩

/-- Every column the schema inference produces has an introspectable type. -/
theorem introspect_types (edges : List EdgeInput) (cols : List ColumnMeta)
    (h : introspectEdgeColumns edges = some cols) :
    ∀ c ∈ cols, c.type = ctBool ∨ c.type = ctDouble ∨ c.type = ctString ∨
      c.type = ctJson ∨ c.type = ctBinary := by
  unfold introspectEdgeColumns at h
  match hf : edges.find? hasProps with
  | none => simp [hf] at h
  | some e =>
      match hp : e.properties with
      | none => simp [hf, hp] at h
      | some ps =>
          simp only [hf, hp] at h
          injection h with h
          subst h
          intro c hc
          simp only [List.mem_map] at hc
          obtain ⟨p, _, hpc⟩ := hc
          subst hpc
          cases p.2 <;> simp [valueToColumnType, ctBool, ctDouble, ctString, ctJson, ctBinary]

/-- `encodeEdgeProperties` succeeds whenever the schema is the one inferred
by `introspectEdgeColumns`. -/
theorem encodeEdgeProperties_introspected_ok (rt : JsRuntime) (edges : List EdgeInput)
    (properties : Option Props) :
    ∃ bs, encodeEdgeProperties rt properties (introspectEdgeColumns edges) = .ok bs := by
  match hc : introspectEdgeColumns edges with
  | none => exact ⟨[], rfl⟩
  | some [] => cases properties <;> exact ⟨[], rfl⟩
  | some (c :: rest) =>
      cases properties with
      | none => exact ⟨[], rfl⟩
      | some ps =>
          exact encodeProps_ok rt (c :: rest) ps (introspect_types edges (c :: rest) hc) 0

/-- `buildEdgeRecord` succeeds exactly on edges meeting the write-side
constraints, provided its property encoding succeeds (which
`encodeEdgeProperties_introspected_ok` guarantees on the writer's own
schemas). -/
theorem buildEdgeRecord_ok_iff (rt : JsRuntime) (edge : EdgeInput)
    (cols : Option (List ColumnMeta)) (featureCount : Nat)
    (henc : ∃ bs, encodeEdgeProperties rt edge.properties cols = .ok bs) :
    (∃ bs, buildEdgeRecord rt edge cols featureCount = .ok bs) ↔
      validEdge featureCount edge := by
  obtain ⟨pb, hpb⟩ := henc
  unfold buildEdgeRecord validEdge
  split_ifs with h1 h2 h3
  · constructor
    · rintro ⟨_, h⟩
      exact absurd h (by simp)
    · intro hv
      exfalso
      omega
  · constructor
    · rintro ⟨_, h⟩
      exact absurd h (by simp)
    · intro hv
      exfalso
      omega
  · constructor
    · rintro ⟨_, h⟩
      exact absurd h (by simp)
    · intro hv
      exfalso
      omega
  · constructor
    · intro _
      refine ⟨?_, ?_, ?_, ?_, ?_⟩ <;> omega
    · intro _
      exact ⟨u32le (8 + pb.length) ++ (u32le edge.fromIdx.toNat ++ (u32le edge.toIdx.toNat ++ pb)),
        by simp [hpb, Bind.bind, Except.bind]⟩

/-- `buildEdgeRecords` succeeds exactly when every edge is valid. -/
theorem buildEdgeRecords_ok_iff (rt : JsRuntime) (edges : List EdgeInput)
    (cols : Option (List ColumnMeta)) (featureCount : Nat)
    (henc : ∀ e ∈ edges, ∃ bs, encodeEdgeProperties rt e.properties cols = .ok bs) :
    (∃ bss, buildEdgeRecords rt edges cols featureCount = .ok bss) ↔
      ∀ e ∈ edges, validEdge featureCount e := by
  induction edges with
  | nil => simp [buildEdgeRecords]
  | cons e rest ih =>
      have he := henc e (by simp)
      have hrest := ih (fun d hd => henc d (by simp [hd]))
      rw [buildEdgeRecords]
      constructor
      · rintro ⟨bss, hbss⟩
        match hr : buildEdgeRecord rt e cols featureCount with
        | .error msg => rw [hr] at hbss; simp [Bind.bind, Except.bind] at hbss
        | .ok rb =>
            rw [hr] at hbss
            simp only [Bind.bind, Except.bind] at hbss
            match hrs : buildEdgeRecords rt rest cols featureCount with
            | .error msg => rw [hrs] at hbss; simp [Bind.bind, Except.bind] at hbss
            | .ok rbs =>
                intro d hd
                rcases List.mem_cons.mp hd with hde | hdr
                · subst hde
                  exact (buildEdgeRecord_ok_iff rt d cols featureCount he).mp ⟨rb, hr⟩
                · exact (hrest.mp ⟨rbs, hrs⟩) d hdr
      · intro hv
        obtain ⟨rb, hr⟩ := (buildEdgeRecord_ok_iff rt e cols featureCount he).mpr
          (hv e (by simp))
        obtain ⟨rbs, hrs⟩ := hrest.mpr (fun d hd => hv d (by simp [hd]))
        exact ⟨rb :: rbs, by simp [hr, hrs, Bind.bind, Except.bind]⟩

theorem byteAt_drop (bs : List Nat) (n i : Nat) : byteAt (bs.drop n) i = byteAt bs (n + i) := by
  simp [byteAt, List.getD_eq_getElem?_getD, List.getElem?_drop]

theorem readU32_drop (bs : List Nat) (n off : Nat) :
    readU32 (bs.drop n) off = readU32 bs (n + off) := by
  simp [readU32, byteAt_drop, Nat.add_assoc]

/-- Reading a u32 at the start of a block of at least four bytes sees only
that block. -/
theorem readU32_prefix (fb rest : List Nat) (h : 4 ≤ fb.length) :
    readU32 (fb ++ rest) 0 = readU32 fb 0 := by
  unfold readU32
  rw [byteAt_append_left _ _ _ (by omega), byteAt_append_left _ _ _ (by omega),
    byteAt_append_left _ _ _ (by omega), byteAt_append_left _ _ _ (by omega)]

/-- The feature walk over a sequence of size-prefixed frames consumes exactly
those frames. -/
theorem featuresWalk_frames (frames : List (List Nat)) :
    ∀ (pre rest : List Nat), (∀ fb ∈ frames, framedFeature fb) →
      featuresWalk (pre ++ frames.flatten ++ rest) pre.length frames.length =
        pre.length + frames.flatten.length := by
  induction frames with
  | nil => intro pre rest _; simp [featuresWalk]
  | cons fb fs ih =>
      intro pre rest hfr
      obtain ⟨hfb4, hfbr⟩ := hfr fb (by simp)
      have hassoc : pre ++ (fb :: fs).flatten ++ rest = (pre ++ fb) ++ fs.flatten ++ rest := by
        simp [List.flatten_cons]
      have hguard : pre.length < (pre ++ (fb :: fs).flatten ++ rest).length := by
        simp [List.flatten_cons]
        omega
      have hread : readU32 (pre ++ (fb :: fs).flatten ++ rest) pre.length = fb.length - 4 := by
        rw [List.append_assoc, readU32_append, List.flatten_cons, List.append_assoc,
          readU32_prefix _ _ hfb4]
        exact hfbr
      show featuresWalk _ pre.length (fs.length + 1) = _
      rw [featuresWalk, if_pos hguard, hread]
      have hoff : pre.length + 4 + (fb.length - 4) = (pre ++ fb).length := by
        simp
        omega
      rw [hoff, hassoc]
      rw [ih (pre ++ fb) rest (fun d hd => hfr d (by simp [hd]))]
      simp [List.flatten_cons]
      omega

/-- Evaluation of the offset locator on a well-formed file layout with no
spatial index: it lands exactly after the encoded features. -/
theorem calcEnd_eval (calcTreeSize : Nat → Nat → Nat) (m8 hb : List Nat) (hl : Nat)
    (frames : List (List Nat)) (rest : List Nat)
    (hm8 : m8.length = 8) (hhb : hb.length = hl) (hhl : hl < 2 ^ 32)
    (hfr : ∀ fb ∈ frames, framedFeature fb) :
    calculateFeaturesEndOffset calcTreeSize (m8 ++ u32le hl ++ hb ++ frames.flatten ++ rest)
      ⟨frames.length, 0⟩ = 12 + hl + frames.flatten.length := by
  have hshape : m8 ++ u32le hl ++ hb ++ frames.flatten ++ rest =
      m8 ++ (u32le hl ++ (hb ++ (frames.flatten ++ rest))) := by simp
  have hread : readU32 (m8 ++ u32le hl ++ hb ++ frames.flatten ++ rest) 8 = hl := by
    rw [hshape, show (8 : Nat) = m8.length from hm8.symm, readU32_append, readU32_u32le]
    omega
  simp only [calculateFeaturesEndOffset, hread]
  rw [if_neg (by decide)]
  have hpre : 8 + 4 + hl = (m8 ++ u32le hl ++ hb).length := by
    simp [u32le, hm8, hhb]
    try omega
  rw [hpre]
  rw [show m8 ++ u32le hl ++ hb ++ frames.flatten ++ rest =
    (m8 ++ u32le hl ++ hb) ++ frames.flatten ++ rest by simp]
  rw [featuresWalk_frames frames (m8 ++ u32le hl ++ hb) rest hfr]

/-- The feature walk never looks at bytes before its starting offset, other
than through the buffer length. -/
theorem featuresWalk_congr (b1 b2 : List Nat) (hlen : b1.length = b2.length)
    (hdrop : b1.drop 8 = b2.drop 8) :
    ∀ (count offset : Nat), 8 ≤ offset →
      featuresWalk b1 offset count = featuresWalk b2 offset count := by
  intro count
  induction count with
  | zero => intro offset _; rfl
  | succ n ih =>
      intro offset hoff
      have hread : readU32 b1 offset = readU32 b2 offset := by
        have h1 : readU32 b1 offset = readU32 (b1.drop 8) (offset - 8) := by
          rw [readU32_drop]
          congr 1
          omega
        have h2 : readU32 b2 offset = readU32 (b2.drop 8) (offset - 8) := by
          rw [readU32_drop]
          congr 1
          omega
        rw [h1, h2, hdrop]
      rw [featuresWalk, featuresWalk, hlen, hread]
      by_cases hg : offset < b2.length
      · rw [if_pos hg, if_pos hg]
        exact ih _ (by omega)
      · rw [if_neg hg, if_neg hg]

/-- The column-list loop of `parseGraphHeader` decodes what `buildGraphHeader`
encoded, column by column (types come back as their stored byte). -/
theorem parseColumns_eval :
    ∀ (cols : List ColumnMeta) (pre rest : List Nat) (offset pos : Nat),
      offset + pos = pre.length →
      (∀ c ∈ cols, c.name.length < 2 ^ 16) →
      parseColumns
          (pre ++ (cols.map fun c => u16le c.name.length ++ c.name ++ [c.type % 256]).flatten
            ++ rest)
          offset pos cols.length =
        cols.map fun c => ⟨c.name, c.type % 256⟩ := by
  intro cols
  induction cols with
  | nil => intro pre rest offset pos _ _; rfl
  | cons c cs ih =>
      intro pre rest offset pos hpos hnames
      have hname_lt := hnames c (by simp)
      set L := c.name.length with hL
      set t := c.type % 256 with ht
      set E : List Nat := (cs.map fun d => u16le d.name.length ++ d.name ++ [d.type % 256]).flatten
        with hE
      have hbytes : pre ++ ((c :: cs).map fun d =>
          u16le d.name.length ++ d.name ++ [d.type % 256]).flatten ++ rest =
          pre ++ (u16le L ++ (c.name ++ ([t] ++ (E ++ rest)))) := by
        simp [hE]
      have h1 : readU16 (pre ++ (u16le L ++ (c.name ++ ([t] ++ (E ++ rest))))) (offset + pos) =
          L := by
        rw [hpos, readU16_at]
        omega
      have h2 : ((pre ++ (u16le L ++ (c.name ++ ([t] ++ (E ++ rest))))).drop
          (offset + pos + 2)).take L = c.name := by
        have : offset + pos + 2 = (pre ++ u16le L).length := by
          simp [u16le]
          omega
        rw [this, show pre ++ (u16le L ++ (c.name ++ ([t] ++ (E ++ rest)))) =
          (pre ++ u16le L) ++ (c.name ++ ([t] ++ (E ++ rest))) by simp, drop_at,
          show c.name ++ ([t] ++ (E ++ rest)) = c.name ++ ([t] ++ (E ++ rest)) from rfl]
        rw [show L = c.name.length from hL, List.take_left]
      have h3 : byteAt (pre ++ (u16le L ++ (c.name ++ ([t] ++ (E ++ rest)))))
          (offset + pos + 2 + L) = t := by
        have : offset + pos + 2 + L = (pre ++ u16le L ++ c.name).length := by
          simp [u16le]
          omega
        rw [this, show pre ++ (u16le L ++ (c.name ++ ([t] ++ (E ++ rest)))) =
          (pre ++ u16le L ++ c.name) ++ (t :: (E ++ rest)) by simp, byteAt_at]
      rw [hbytes]
      show parseColumns _ offset pos (cs.length + 1) = _
      rw [parseColumns, h1, h2, h3]
      have hassoc : pre ++ (u16le L ++ (c.name ++ ([t] ++ (E ++ rest)))) =
          (pre ++ u16le L ++ c.name ++ [t]) ++ E ++ rest := by
        simp
      rw [hassoc]
      rw [ih (pre ++ u16le L ++ c.name ++ [t]) rest offset (pos + 2 + L + 1)
        (by simp [u16le]; omega) (fun d hd => hnames d (by simp [hd]))]
      simp

/-- `parseGraphHeader` after `buildGraphHeader`: the edge count comes back
mod `2^32` and the column list comes back exactly (types as stored bytes),
`null` when empty. -/
theorem parseGraphHeader_build (n : Nat) (cols : List ColumnMeta) (rest : List Nat)
    (hnames : ∀ c ∈ cols, c.name.length < 2 ^ 16) (hcount : cols.length < 2 ^ 16) :
    parseGraphHeader (buildGraphHeader n (some cols) ++ rest) 0 =
      ⟨n % 2 ^ 32,
        if cols.isEmpty then none else some (cols.map fun c => ⟨c.name, c.type % 256⟩)⟩ := by
  have hshape : buildGraphHeader n (some cols) ++ rest =
      u32le n ++ (u16le cols.length ++
        ((cols.map fun c => u16le c.name.length ++ c.name ++ [c.type % 256]).flatten ++ rest)) := by
    simp [buildGraphHeader]
  have hcnt : readU16 (buildGraphHeader n (some cols) ++ rest) (0 + 4) = cols.length := by
    rw [hshape, show (0 + 4 : Nat) = (u32le n).length by simp [u32le], readU16_append,
      readU16_u16le]
    omega
  have hec : readU32 (buildGraphHeader n (some cols) ++ rest) 0 = n % 2 ^ 32 := by
    rw [hshape, readU32_u32le]
  have hcols : parseColumns (buildGraphHeader n (some cols) ++ rest) 0 6 cols.length =
      cols.map fun c => ⟨c.name, c.type % 256⟩ := by
    have hshape2 : buildGraphHeader n (some cols) ++ rest =
        (u32le n ++ u16le cols.length) ++
          (cols.map fun c => u16le c.name.length ++ c.name ++ [c.type % 256]).flatten ++ rest := by
      simp [buildGraphHeader]
    rw [hshape2]
    exact parseColumns_eval cols (u32le n ++ u16le cols.length) rest 0 6
      (by simp [u32le, u16le]) hnames
  simp only [parseGraphHeader, hcnt, hec, hcols]
  cases cols <;> simp

theorem getD_append_elem {α : Type} (a b : List α) (x d : α) :
    (a ++ x :: b).getD a.length d = x := by
  simp [List.getD_eq_getElem?_getD, List.getElem?_append_right (Nat.le_refl _)]

/-- Inversion of one step of `encodeProps` when a non-null value is present. -/
theorem encodeProps_cons_inv (rt : JsRuntime) (c : ColumnMeta) (cs : List ColumnMeta)
    (ps : Props) (i : Nat) (v : PropValue) (enc : List Nat)
    (hv : propGet ps c.name = some v) (hvn : v ≠ .vNull)
    (h : encodeProps rt (c :: cs) ps i = .ok enc) :
    ∃ vb enc2, encodeValue rt c.type v = .ok vb ∧ encodeProps rt cs ps (i + 1) = .ok enc2 ∧
      enc = u16le i ++ vb ++ enc2 := by
  rw [encodeProps, hv] at h
  cases v with
  | vNull => exact absurd rfl hvn
  | vBool b =>
      match hev : encodeValue rt c.type (.vBool b) with
      | .error e => simp [hev, Bind.bind, Except.bind] at h
      | .ok vb =>
          match her : encodeProps rt cs ps (i + 1) with
          | .error e => simp [hev, her, Bind.bind, Except.bind] at h
          | .ok enc2 =>
              simp only [hev, her, Bind.bind, Except.bind] at h
              injection h with h
              exact ⟨vb, enc2, by simp [hev], by simp [her], by rw [← h]⟩
  | vInt j =>
      match hev : encodeValue rt c.type (.vInt j) with
      | .error e => simp [hev, Bind.bind, Except.bind] at h
      | .ok vb =>
          match her : encodeProps rt cs ps (i + 1) with
          | .error e => simp [hev, her, Bind.bind, Except.bind] at h
          | .ok enc2 =>
              simp only [hev, her, Bind.bind, Except.bind] at h
              injection h with h
              exact ⟨vb, enc2, by simp [hev], by simp [her], by rw [← h]⟩
  | vF64 bits =>
      match hev : encodeValue rt c.type (.vF64 bits) with
      | .error e => simp [hev, Bind.bind, Except.bind] at h
      | .ok vb =>
          match her : encodeProps rt cs ps (i + 1) with
          | .error e => simp [hev, her, Bind.bind, Except.bind] at h
          | .ok enc2 =>
              simp only [hev, her, Bind.bind, Except.bind] at h
              injection h with h
              exact ⟨vb, enc2, by simp [hev], by simp [her], by rw [← h]⟩
  | vF32 bits =>
      match hev : encodeValue rt c.type (.vF32 bits) with
      | .error e => simp [hev, Bind.bind, Except.bind] at h
      | .ok vb =>
          match her : encodeProps rt cs ps (i + 1) with
          | .error e => simp [hev, her, Bind.bind, Except.bind] at h
          | .ok enc2 =>
              simp only [hev, her, Bind.bind, Except.bind] at h
              injection h with h
              exact ⟨vb, enc2, by simp [hev], by simp [her], by rw [← h]⟩
  | vStr s2 =>
      match hev : encodeValue rt c.type (.vStr s2) with
      | .error e => simp [hev, Bind.bind, Except.bind] at h
      | .ok vb =>
          match her : encodeProps rt cs ps (i + 1) with
          | .error e => simp [hev, her, Bind.bind, Except.bind] at h
          | .ok enc2 =>
              simp only [hev, her, Bind.bind, Except.bind] at h
              injection h with h
              exact ⟨vb, enc2, by simp [hev], by simp [her], by rw [← h]⟩
  | vJson s2 =>
      match hev : encodeValue rt c.type (.vJson s2) with
      | .error e => simp [hev, Bind.bind, Except.bind] at h
      | .ok vb =>
          match her : encodeProps rt cs ps (i + 1) with
          | .error e => simp [hev, her, Bind.bind, Except.bind] at h
          | .ok enc2 =>
              simp only [hev, her, Bind.bind, Except.bind] at h
              injection h with h
              exact ⟨vb, enc2, by simp [hev], by simp [her], by rw [← h]⟩
  | vBin s2 =>
      match hev : encodeValue rt c.type (.vBin s2) with
      | .error e => simp [hev, Bind.bind, Except.bind] at h
      | .ok vb =>
          match her : encodeProps rt cs ps (i + 1) with
          | .error e => simp [hev, her, Bind.bind, Except.bind] at h
          | .ok enc2 =>
              simp only [hev, her, Bind.bind, Except.bind] at h
              injection h with h
              exact ⟨vb, enc2, by simp [hev], by simp [her], by rw [← h]⟩

/-- If `encodeProps` emitted no bytes, the projection is empty. -/
theorem encodeProps_nil_proj (rt : JsRuntime) (cols : List ColumnMeta) (ps : Props) :
    ∀ i, encodeProps rt cols ps i = .ok [] → schemaProjection cols ps = [] := by
  induction cols with
  | nil => intro _ _; rfl
  | cons c cs ih =>
      intro i h
      match hv : propGet ps c.name with
      | none =>
          rw [encodeProps, hv] at h
          have hstep : schemaProjection (c :: cs) ps = schemaProjection cs ps := by
            simp [schemaProjection, List.filterMap_cons, hv]
          rw [hstep]
          exact ih (i + 1) h
      | some .vNull =>
          rw [encodeProps, hv] at h
          have hstep : schemaProjection (c :: cs) ps = schemaProjection cs ps := by
            simp [schemaProjection, List.filterMap_cons, hv]
          rw [hstep]
          exact ih (i + 1) h
      | some (.vBool b) =>
          obtain ⟨vb, enc2, _, _, henc⟩ :=
            encodeProps_cons_inv rt c cs ps i (.vBool b) [] hv (by simp) h
          exact absurd henc.symm (by simp [u16le])
      | some (.vInt j) =>
          obtain ⟨vb, enc2, _, _, henc⟩ :=
            encodeProps_cons_inv rt c cs ps i (.vInt j) [] hv (by simp) h
          exact absurd henc.symm (by simp [u16le])
      | some (.vF64 bits) =>
          obtain ⟨vb, enc2, _, _, henc⟩ :=
            encodeProps_cons_inv rt c cs ps i (.vF64 bits) [] hv (by simp) h
          exact absurd henc.symm (by simp [u16le])
      | some (.vF32 bits) =>
          obtain ⟨vb, enc2, _, _, henc⟩ :=
            encodeProps_cons_inv rt c cs ps i (.vF32 bits) [] hv (by simp) h
          exact absurd henc.symm (by simp [u16le])
      | some (.vStr s2) =>
          obtain ⟨vb, enc2, _, _, henc⟩ :=
            encodeProps_cons_inv rt c cs ps i (.vStr s2) [] hv (by simp) h
          exact absurd henc.symm (by simp [u16le])
      | some (.vJson s2) =>
          obtain ⟨vb, enc2, _, _, henc⟩ :=
            encodeProps_cons_inv rt c cs ps i (.vJson s2) [] hv (by simp) h
          exact absurd henc.symm (by simp [u16le])
      | some (.vBin s2) =>
          obtain ⟨vb, enc2, _, _, henc⟩ :=
            encodeProps_cons_inv rt c cs ps i (.vBin s2) [] hv (by simp) h
          exact absurd henc.symm (by simp [u16le])

/-- `schemaProjection` of the empty property map is empty. -/
theorem schemaProjection_nil (cols : List ColumnMeta) : schemaProjection cols [] = [] := by
  simp [schemaProjection, propGet]

/-- `encodeValue` on a Bool column and a boolean value. -/
theorem encodeValue_bool (rt : JsRuntime) (b : Bool) :
    encodeValue rt ctBool (.vBool b) = .ok [if b then 1 else 0] := by
  simp [encodeValue, jsTruthy]

/-- `encodeValue` on a Double column and a number value. -/
theorem encodeValue_double (rt : JsRuntime) (bits : Nat) (h : bits < 2 ^ 64) :
    encodeValue rt ctDouble (.vF64 bits) = .ok (u64le bits) := by
  simp only [encodeValue, ctBool, ctShort, ctUShort, ctInt, ctUInt, ctLong, ctFloat, ctDouble,
    toNumberBits]
  norm_num
  congr 1
  omega

/-- `encodeValue` on a String column and a string value. -/
theorem encodeValue_string (rt : JsRuntime) (s : List Nat) :
    encodeValue rt ctString (.vStr s) = .ok (u32le s.length ++ s) := by
  simp [encodeValue, ctBool, ctShort, ctUShort, ctInt, ctUInt, ctLong, ctFloat, ctDouble,
    ctDateTime, ctString, jsToText]

/-- `encodeValue` on a Json column and an object value. -/
theorem encodeValue_json (rt : JsRuntime) (t : List Nat) :
    encodeValue rt ctJson (.vJson t) = .ok (u32le t.length ++ t) := by
  simp [encodeValue, ctBool, ctShort, ctUShort, ctInt, ctUInt, ctLong, ctFloat, ctDouble,
    ctDateTime, ctString, ctJson, jsonStringify]

/-- `encodeValue` on a Binary column and a byte-array value. -/
theorem encodeValue_binary (rt : JsRuntime) (b : List Nat) :
    encodeValue rt ctBinary (.vBin b) = .ok (u32le b.length ++ b) := by
  simp [encodeValue, ctBool, ctShort, ctUShort, ctInt, ctUInt, ctLong, ctFloat, ctDouble,
    ctDateTime, ctString, ctJson, ctBinary]

/-- One encoded `[ordinal u16][value]` chunk sitting at the loop\x27s offset
advances the decoding loop past itself and records the decoded value under
the addressed column\x27s name (the decoded value is supplied through `hdec`). -/
theorem ppGo_chunk_step (vb enc2 pre suffix tail : List Nat)
    (colsAll done cs : List ColumnMeta) (c : ColumnMeta) (v : PropValue) (acc : Props)
    (hcols : colsAll = done ++ c :: cs)
    (hbound : colsAll.length ≤ 2 ^ 16)
    (hdec : decodeStep ((pre ++ (u16le done.length ++ vb ++ enc2) ++ suffix) ++ tail)
        (pre ++ (u16le done.length ++ vb ++ enc2) ++ suffix) pre.length c =
      .ok (v, vb.length)) :
    ppGo (pre ++ (u16le done.length ++ vb ++ enc2) ++ suffix) tail colsAll
        ((pre ++ (u16le done.length ++ vb ++ enc2) ++ suffix).length + 1) pre.length acc =
      ppGo (pre ++ (u16le done.length ++ vb ++ enc2) ++ suffix) tail colsAll
        ((pre ++ (u16le done.length ++ vb ++ enc2) ++ suffix).length + 1)
        (pre.length + 2 + vb.length) (propSet acc c.name v) := by
  have hdlen : done.length < 2 ^ 16 := by
    have h := hbound
    rw [hcols] at h
    simp only [List.length_append, List.length_cons] at h
    omega
  have h16 : readU16 ((pre ++ (u16le done.length ++ vb ++ enc2) ++ suffix) ++ tail)
      pre.length = done.length := by
    have hsh : (pre ++ (u16le done.length ++ vb ++ enc2) ++ suffix) ++ tail =
        pre ++ (u16le done.length ++ (vb ++ enc2 ++ suffix ++ tail)) := by simp
    rw [hsh, readU16_at, Nat.mod_eq_of_lt hdlen]
  have hci : done.length < colsAll.length := by
    rw [hcols]
    simp only [List.length_append, List.length_cons]
    omega
  have hgetD : colsAll.getD done.length ⟨[], 0⟩ = c := by
    rw [hcols]
    exact getD_append_elem done cs c ⟨[], 0⟩
  have hlt : pre.length < (pre ++ (u16le done.length ++ vb ++ enc2) ++ suffix).length := by
    simp only [List.length_append, u16le_length]
    omega
  rw [ppGo_step _ _ _ _ _ _ v vb.length hlt (by rw [h16]; exact hci)
    (by rw [h16, hgetD]; exact hdec)]
  rw [h16, hgetD]
  exact ppGo_fuel_congr _ _ _ _ _ _ _ (by omega) (by omega)

/-- Decoding the byte block `encodeProps` emits for the schema tail
`restCols` (whose first ordinal is `done.length`) advances the property loop
from the start of the block to its end, accumulating exactly the projection
of the property map onto those columns. -/
theorem ppGo_chunk (rt : JsRuntime) (suffix tail : List Nat)
    (colsAll : List ColumnMeta) (ps : Props)
    (hbound : colsAll.length ≤ 2 ^ 16) :
    ∀ (restCols : List ColumnMeta), ∀ (done : List ColumnMeta) (pre enc : List Nat)
      (acc : Props),
      colsAll = done ++ restCols →
      encodeProps rt restCols ps done.length = .ok enc →
      EncodesCleanly restCols ps →
      ppGo (pre ++ enc ++ suffix) tail colsAll ((pre ++ enc ++ suffix).length + 1)
          pre.length acc =
        ppGo (pre ++ enc ++ suffix) tail colsAll ((pre ++ enc ++ suffix).length + 1)
          (pre.length + enc.length)
          ((schemaProjection restCols ps).foldl (fun a p => propSet a p.1 p.2) acc) := by
  intro restCols
  induction restCols with
  | nil =>
      intro done pre enc acc hcols henc hclean
      simp only [encodeProps] at henc
      injection henc with henc
      subst henc
      simp [schemaProjection]
  | cons c cs ih =>
      intro done pre enc acc hcols henc hclean
      match hv : propGet ps c.name with
      | none =>
          rw [encodeProps, hv] at henc
          have hproj : schemaProjection (c :: cs) ps = schemaProjection cs ps := by
            simp [schemaProjection, List.filterMap_cons, hv]
          rw [hproj]
          exact ih (done ++ [c]) pre enc acc (by rw [hcols]; simp) (by simpa using henc)
            (fun d hd w hw hwn => hclean d (by simp [hd]) w hw hwn)
      | some .vNull =>
          rw [encodeProps, hv] at henc
          have hproj : schemaProjection (c :: cs) ps = schemaProjection cs ps := by
            simp [schemaProjection, List.filterMap_cons, hv]
          rw [hproj]
          exact ih (done ++ [c]) pre enc acc (by rw [hcols]; simp) (by simpa using henc)
            (fun d hd w hw hwn => hclean d (by simp [hd]) w hw hwn)
      | some (.vInt j) =>
          obtain ⟨htype, hinput, hwf⟩ := hclean c (by simp) (.vInt j) hv (by simp)
          simp [isInputValue] at hinput
      | some (.vF32 w32) =>
          obtain ⟨htype, hinput, hwf⟩ := hclean c (by simp) (.vF32 w32) hv (by simp)
          simp [isInputValue] at hinput
      | some (.vBool b) =>
          obtain ⟨htype, hinput, hwf⟩ := hclean c (by simp) (.vBool b) hv (by simp)
          obtain ⟨vb, enc2, hvb, her, hencsh⟩ :=
            encodeProps_cons_inv rt c cs ps done.length (.vBool b) enc hv (by simp) henc
          have hct : c.type = ctBool := by rw [← htype]; rfl
          rw [hct, encodeValue_bool] at hvb
          injection hvb with hvb
          subst hvb
          subst hencsh
          have hproj : schemaProjection (c :: cs) ps =
              (c.name, PropValue.vBool b) :: schemaProjection cs ps := by
            simp [schemaProjection, List.filterMap_cons, hv]
          rw [hproj, List.foldl_cons]
          have hdec : decodeStep
              ((pre ++ (u16le done.length ++ [if b then (1 : Nat) else 0] ++ enc2) ++ suffix)
                ++ tail)
              (pre ++ (u16le done.length ++ [if b then (1 : Nat) else 0] ++ enc2) ++ suffix)
              pre.length c =
              .ok (.vBool b, ([if b then (1 : Nat) else 0] : List Nat).length) := by
            rw [decodeStep_bool _ _ _ _ hct]
            have hpos : pre.length + 2 = (pre ++ u16le done.length).length := by
              simp only [List.length_append, u16le_length]
            have hsh : (pre ++ (u16le done.length ++ [if b then (1 : Nat) else 0] ++ enc2)
                  ++ suffix) ++ tail =
                (pre ++ u16le done.length) ++
                  ((if b then (1 : Nat) else 0) :: (enc2 ++ suffix ++ tail)) := by
              simp
            rw [hsh, hpos, byteAt_at]
            cases b <;> simp
          rw [ppGo_chunk_step _ _ _ _ _ _ _ _ _ _ _ hcols hbound hdec]
          have hsh2 : pre ++ (u16le done.length ++ [if b then (1 : Nat) else 0] ++ enc2)
                ++ suffix =
              (pre ++ u16le done.length ++ [if b then (1 : Nat) else 0]) ++ enc2 ++ suffix := by
            simp
          rw [hsh2]
          have hoff1 : pre.length + 2 + ([if b then (1 : Nat) else 0] : List Nat).length =
              (pre ++ u16le done.length ++ [if b then (1 : Nat) else 0]).length := by
            simp only [List.length_append, u16le_length, List.length_singleton]
          have hoff2 : pre.length +
              (u16le done.length ++ [if b then (1 : Nat) else 0] ++ enc2).length =
              (pre ++ u16le done.length ++ [if b then (1 : Nat) else 0]).length +
                enc2.length := by
            simp only [List.length_append, u16le_length, List.length_singleton]
            omega
          rw [hoff1, hoff2]
          exact ih (done ++ [c]) (pre ++ u16le done.length ++ [if b then (1 : Nat) else 0])
            enc2 (propSet acc c.name (.vBool b)) (by rw [hcols]; simp) (by simpa using her)
            (fun d hd w hw hwn => hclean d (by simp [hd]) w hw hwn)
      | some (.vF64 bits) =>
          obtain ⟨htype, hinput, hwf⟩ := hclean c (by simp) (.vF64 bits) hv (by simp)
          have hb64 : bits < 2 ^ 64 := by simpa [wfValue] using hwf
          obtain ⟨vb, enc2, hvb, her, hencsh⟩ :=
            encodeProps_cons_inv rt c cs ps done.length (.vF64 bits) enc hv (by simp) henc
          have hct : c.type = ctDouble := by rw [← htype]; rfl
          rw [hct, encodeValue_double rt bits hb64] at hvb
          injection hvb with hvb
          subst hvb
          subst hencsh
          have hproj : schemaProjection (c :: cs) ps =
              (c.name, PropValue.vF64 bits) :: schemaProjection cs ps := by
            simp [schemaProjection, List.filterMap_cons, hv]
          rw [hproj, List.foldl_cons]
          have hdec : decodeStep
              ((pre ++ (u16le done.length ++ u64le bits ++ enc2) ++ suffix) ++ tail)
              (pre ++ (u16le done.length ++ u64le bits ++ enc2) ++ suffix)
              pre.length c = .ok (.vF64 bits, (u64le bits).length) := by
            rw [decodeStep_double _ _ _ _ hct]
            have hpos : pre.length + 2 = (pre ++ u16le done.length).length := by
              simp only [List.length_append, u16le_length]
            have hsh : (pre ++ (u16le done.length ++ u64le bits ++ enc2) ++ suffix) ++ tail =
                (pre ++ u16le done.length) ++ (u64le bits ++ (enc2 ++ suffix ++ tail)) := by
              simp
            rw [hsh, hpos, readU64_at, Nat.mod_eq_of_lt hb64, u64le_length]
          rw [ppGo_chunk_step _ _ _ _ _ _ _ _ _ _ _ hcols hbound hdec]
          have hsh2 : pre ++ (u16le done.length ++ u64le bits ++ enc2) ++ suffix =
              (pre ++ u16le done.length ++ u64le bits) ++ enc2 ++ suffix := by
            simp
          rw [hsh2]
          have hoff1 : pre.length + 2 + (u64le bits).length =
              (pre ++ u16le done.length ++ u64le bits).length := by
            simp only [List.length_append, u16le_length, u64le_length]
          have hoff2 : pre.length + (u16le done.length ++ u64le bits ++ enc2).length =
              (pre ++ u16le done.length ++ u64le bits).length + enc2.length := by
            simp only [List.length_append, u16le_length, u64le_length]
            omega
          rw [hoff1, hoff2]
          exact ih (done ++ [c]) (pre ++ u16le done.length ++ u64le bits) enc2
            (propSet acc c.name (.vF64 bits)) (by rw [hcols]; simp) (by simpa using her)
            (fun d hd w hw hwn => hclean d (by simp [hd]) w hw hwn)
      | some (.vStr s) =>
          obtain ⟨htype, hinput, hwf⟩ := hclean c (by simp) (.vStr s) hv (by simp)
          have hs32 : s.length < 2 ^ 32 := by simpa [wfValue] using hwf
          obtain ⟨vb, enc2, hvb, her, hencsh⟩ :=
            encodeProps_cons_inv rt c cs ps done.length (.vStr s) enc hv (by simp) henc
          have hct : c.type = ctString := by rw [← htype]; rfl
          rw [hct, encodeValue_string] at hvb
          injection hvb with hvb
          subst hvb
          subst hencsh
          have hproj : schemaProjection (c :: cs) ps =
              (c.name, PropValue.vStr s) :: schemaProjection cs ps := by
            simp [schemaProjection, List.filterMap_cons, hv]
          rw [hproj, List.foldl_cons]
          have hdec : decodeStep
              ((pre ++ (u16le done.length ++ (u32le s.length ++ s) ++ enc2) ++ suffix) ++ tail)
              (pre ++ (u16le done.length ++ (u32le s.length ++ s) ++ enc2) ++ suffix)
              pre.length c = .ok (.vStr s, (u32le s.length ++ s).length) := by
            rw [decodeStep_string _ _ _ _ hct]
            have hpos : pre.length + 2 = (pre ++ u16le done.length).length := by
              simp only [List.length_append, u16le_length]
            have hlen : readU32 ((pre ++ (u16le done.length ++ (u32le s.length ++ s) ++ enc2)
                  ++ suffix) ++ tail) (pre.length + 2) = s.length := by
              have hsh : (pre ++ (u16le done.length ++ (u32le s.length ++ s) ++ enc2)
                    ++ suffix) ++ tail =
                  (pre ++ u16le done.length) ++
                    (u32le s.length ++ (s ++ enc2 ++ suffix ++ tail)) := by
                simp
              rw [hsh, hpos, readU32_at, Nat.mod_eq_of_lt hs32]
            have hpay : ((pre ++ (u16le done.length ++ (u32le s.length ++ s) ++ enc2)
                  ++ suffix).drop (pre.length + 2 + 4)).take s.length = s := by
              have hpos2 : pre.length + 2 + 4 =
                  (pre ++ u16le done.length ++ u32le s.length).length := by
                simp only [List.length_append, u16le_length, u32le_length]
              have hsh2 : pre ++ (u16le done.length ++ (u32le s.length ++ s) ++ enc2)
                    ++ suffix =
                  (pre ++ u16le done.length ++ u32le s.length) ++ (s ++ (enc2 ++ suffix)) := by
                simp
              rw [hsh2, hpos2, drop_at]
              exact take_at s (enc2 ++ suffix)
            rw [hlen, hpay]
            simp only [List.length_append, u32le_length]
          rw [ppGo_chunk_step _ _ _ _ _ _ _ _ _ _ _ hcols hbound hdec]
          have hsh2 : pre ++ (u16le done.length ++ (u32le s.length ++ s) ++ enc2) ++ suffix =
              (pre ++ u16le done.length ++ (u32le s.length ++ s)) ++ enc2 ++ suffix := by
            simp
          rw [hsh2]
          have hoff1 : pre.length + 2 + (u32le s.length ++ s).length =
              (pre ++ u16le done.length ++ (u32le s.length ++ s)).length := by
            simp only [List.length_append, u16le_length, u32le_length]
          have hoff2 : pre.length + (u16le done.length ++ (u32le s.length ++ s) ++ enc2).length =
              (pre ++ u16le done.length ++ (u32le s.length ++ s)).length + enc2.length := by
            simp only [List.length_append, u16le_length, u32le_length]
            omega
          rw [hoff1, hoff2]
          exact ih (done ++ [c]) (pre ++ u16le done.length ++ (u32le s.length ++ s)) enc2
            (propSet acc c.name (.vStr s)) (by rw [hcols]; simp) (by simpa using her)
            (fun d hd w hw hwn => hclean d (by simp [hd]) w hw hwn)
      | some (.vJson t) =>
          obtain ⟨htype, hinput, hwf⟩ := hclean c (by simp) (.vJson t) hv (by simp)
          have hs32 : t.length < 2 ^ 32 := by simpa [wfValue] using hwf
          obtain ⟨vb, enc2, hvb, her, hencsh⟩ :=
            encodeProps_cons_inv rt c cs ps done.length (.vJson t) enc hv (by simp) henc
          have hct : c.type = ctJson := by rw [← htype]; rfl
          rw [hct, encodeValue_json] at hvb
          injection hvb with hvb
          subst hvb
          subst hencsh
          have hproj : schemaProjection (c :: cs) ps =
              (c.name, PropValue.vJson t) :: schemaProjection cs ps := by
            simp [schemaProjection, List.filterMap_cons, hv]
          rw [hproj, List.foldl_cons]
          have hdec : decodeStep
              ((pre ++ (u16le done.length ++ (u32le t.length ++ t) ++ enc2) ++ suffix) ++ tail)
              (pre ++ (u16le done.length ++ (u32le t.length ++ t) ++ enc2) ++ suffix)
              pre.length c = .ok (.vJson t, (u32le t.length ++ t).length) := by
            rw [decodeStep_json _ _ _ _ hct]
            have hpos : pre.length + 2 = (pre ++ u16le done.length).length := by
              simp only [List.length_append, u16le_length]
            have hlen : readU32 ((pre ++ (u16le done.length ++ (u32le t.length ++ t) ++ enc2)
                  ++ suffix) ++ tail) (pre.length + 2) = t.length := by
              have hsh : (pre ++ (u16le done.length ++ (u32le t.length ++ t) ++ enc2)
                    ++ suffix) ++ tail =
                  (pre ++ u16le done.length) ++
                    (u32le t.length ++ (t ++ enc2 ++ suffix ++ tail)) := by
                simp
              rw [hsh, hpos, readU32_at, Nat.mod_eq_of_lt hs32]
            have hpay : ((pre ++ (u16le done.length ++ (u32le t.length ++ t) ++ enc2)
                  ++ suffix).drop (pre.length + 2 + 4)).take t.length = t := by
              have hpos2 : pre.length + 2 + 4 =
                  (pre ++ u16le done.length ++ u32le t.length).length := by
                simp only [List.length_append, u16le_length, u32le_length]
              have hsh2 : pre ++ (u16le done.length ++ (u32le t.length ++ t) ++ enc2)
                    ++ suffix =
                  (pre ++ u16le done.length ++ u32le t.length) ++ (t ++ (enc2 ++ suffix)) := by
                simp
              rw [hsh2, hpos2, drop_at]
              exact take_at t (enc2 ++ suffix)
            rw [hlen, hpay]
            simp only [List.length_append, u32le_length]
          rw [ppGo_chunk_step _ _ _ _ _ _ _ _ _ _ _ hcols hbound hdec]
          have hsh2 : pre ++ (u16le done.length ++ (u32le t.length ++ t) ++ enc2) ++ suffix =
              (pre ++ u16le done.length ++ (u32le t.length ++ t)) ++ enc2 ++ suffix := by
            simp
          rw [hsh2]
          have hoff1 : pre.length + 2 + (u32le t.length ++ t).length =
              (pre ++ u16le done.length ++ (u32le t.length ++ t)).length := by
            simp only [List.length_append, u16le_length, u32le_length]
          have hoff2 : pre.length + (u16le done.length ++ (u32le t.length ++ t) ++ enc2).length =
              (pre ++ u16le done.length ++ (u32le t.length ++ t)).length + enc2.length := by
            simp only [List.length_append, u16le_length, u32le_length]
            omega
          rw [hoff1, hoff2]
          exact ih (done ++ [c]) (pre ++ u16le done.length ++ (u32le t.length ++ t)) enc2
            (propSet acc c.name (.vJson t)) (by rw [hcols]; simp) (by simpa using her)
            (fun d hd w hw hwn => hclean d (by simp [hd]) w hw hwn)
      | some (.vBin bb) =>
          obtain ⟨htype, hinput, hwf⟩ := hclean c (by simp) (.vBin bb) hv (by simp)
          have hs32 : bb.length < 2 ^ 32 := by simpa [wfValue] using hwf
          obtain ⟨vb, enc2, hvb, her, hencsh⟩ :=
            encodeProps_cons_inv rt c cs ps done.length (.vBin bb) enc hv (by simp) henc
          have hct : c.type = ctBinary := by rw [← htype]; rfl
          rw [hct, encodeValue_binary] at hvb
          injection hvb with hvb
          subst hvb
          subst hencsh
          have hproj : schemaProjection (c :: cs) ps =
              (c.name, PropValue.vBin bb) :: schemaProjection cs ps := by
            simp [schemaProjection, List.filterMap_cons, hv]
          rw [hproj, List.foldl_cons]
          have hdec : decodeStep
              ((pre ++ (u16le done.length ++ (u32le bb.length ++ bb) ++ enc2) ++ suffix) ++ tail)
              (pre ++ (u16le done.length ++ (u32le bb.length ++ bb) ++ enc2) ++ suffix)
              pre.length c = .ok (.vBin bb, (u32le bb.length ++ bb).length) := by
            rw [decodeStep_binary _ _ _ _ hct]
            have hpos : pre.length + 2 = (pre ++ u16le done.length).length := by
              simp only [List.length_append, u16le_length]
            have hlen : readU32 ((pre ++ (u16le done.length ++ (u32le bb.length ++ bb) ++ enc2)
                  ++ suffix) ++ tail) (pre.length + 2) = bb.length := by
              have hsh : (pre ++ (u16le done.length ++ (u32le bb.length ++ bb) ++ enc2)
                    ++ suffix) ++ tail =
                  (pre ++ u16le done.length) ++
                    (u32le bb.length ++ (bb ++ enc2 ++ suffix ++ tail)) := by
                simp
              rw [hsh, hpos, readU32_at, Nat.mod_eq_of_lt hs32]
            have hpay : ((pre ++ (u16le done.length ++ (u32le bb.length ++ bb) ++ enc2)
                  ++ suffix).drop (pre.length + 2 + 4)).take bb.length = bb := by
              have hpos2 : pre.length + 2 + 4 =
                  (pre ++ u16le done.length ++ u32le bb.length).length := by
                simp only [List.length_append, u16le_length, u32le_length]
              have hsh2 : pre ++ (u16le done.length ++ (u32le bb.length ++ bb) ++ enc2)
                    ++ suffix =
                  (pre ++ u16le done.length ++ u32le bb.length) ++
                    (bb ++ (enc2 ++ suffix)) := by
                simp
              rw [hsh2, hpos2, drop_at]
              exact take_at bb (enc2 ++ suffix)
            rw [hlen, hpay]
            simp only [List.length_append, u32le_length]
          rw [ppGo_chunk_step _ _ _ _ _ _ _ _ _ _ _ hcols hbound hdec]
          have hsh2 : pre ++ (u16le done.length ++ (u32le bb.length ++ bb) ++ enc2) ++ suffix =
              (pre ++ u16le done.length ++ (u32le bb.length ++ bb)) ++ enc2 ++ suffix := by
            simp
          rw [hsh2]
          have hoff1 : pre.length + 2 + (u32le bb.length ++ bb).length =
              (pre ++ u16le done.length ++ (u32le bb.length ++ bb)).length := by
            simp only [List.length_append, u16le_length, u32le_length]
          have hoff2 : pre.length +
              (u16le done.length ++ (u32le bb.length ++ bb) ++ enc2).length =
              (pre ++ u16le done.length ++ (u32le bb.length ++ bb)).length + enc2.length := by
            simp only [List.length_append, u16le_length, u32le_length]
            omega
          rw [hoff1, hoff2]
          exact ih (done ++ [c]) (pre ++ u16le done.length ++ (u32le bb.length ++ bb)) enc2
            (propSet acc c.name (.vBin bb)) (by rw [hcols]; simp) (by simpa using her)
            (fun d hd w hw hwn => hclean d (by simp [hd]) w hw hwn)

/-- `propGet` over an appended map: the left map wins. -/
theorem propGet_append (a b : Props) (name : List Nat) :
    propGet (a ++ b) name =
      match propGet a name with
      | some v => some v
      | none => propGet b name := by
  induction a with
  | nil => rfl
  | cons p r ih =>
      obtain ⟨k, w⟩ := p
      by_cases hk : k = name
      · simp [propGet, hk]
      · simp [propGet, hk, ih]

/-- `propSet` on a fresh key appends the binding. -/
theorem propSet_append_new (acc : Props) (name : List Nat) (v : PropValue)
    (h : propGet acc name = none) :
    propSet acc name v = acc ++ [(name, v)] := by
  induction acc with
  | nil => rfl
  | cons p r ih =>
      obtain ⟨k, w⟩ := p
      rw [propGet] at h
      by_cases hk : k = name
      · rw [if_pos hk] at h
        simp at h
      · rw [if_neg hk] at h
        rw [propSet, if_neg hk, ih h]
        simp

/-- Folding `propSet` over fresh, duplicate-free bindings appends them. -/
theorem foldl_propSet_append (l : Props) :
    ∀ acc : Props, (∀ p ∈ l, propGet acc p.1 = none) → (l.map Prod.fst).Nodup →
      l.foldl (fun a p => propSet a p.1 p.2) acc = acc ++ l := by
  induction l with
  | nil =>
      intro acc _ _
      simp
  | cons p r ih =>
      intro acc hfresh hnd
      obtain ⟨k, v⟩ := p
      rw [List.map_cons, List.nodup_cons] at hnd
      have hset : propSet acc k v = acc ++ [(k, v)] :=
        propSet_append_new acc k v (hfresh (k, v) (by simp))
      have hfresh2 : ∀ q ∈ r, propGet (acc ++ [(k, v)]) q.1 = none := by
        intro q hq
        rw [propGet_append, hfresh q (by simp [hq])]
        have hne : k ≠ q.1 := by
          intro hkq
          apply hnd.1
          rw [hkq]
          exact List.mem_map.mpr ⟨q, hq, rfl⟩
        simp [propGet, hne]
      rw [List.foldl_cons]
      show r.foldl (fun a p => propSet a p.1 p.2) (propSet acc k v) = acc ++ (k, v) :: r
      rw [hset, ih (acc ++ [(k, v)]) hfresh2 hnd.2]
      simp

/-- The keys of the schema projection, in order, form a sublist of the
schema\x27s column names. -/
theorem schemaProjection_keys_sublist (cols : List ColumnMeta) (ps : Props) :
    ((schemaProjection cols ps).map Prod.fst).Sublist (cols.map ColumnMeta.name) := by
  induction cols with
  | nil => simp [schemaProjection]
  | cons c cs ih =>
      match hv : propGet ps c.name with
      | none =>
          have hstep : schemaProjection (c :: cs) ps = schemaProjection cs ps := by
            simp [schemaProjection, List.filterMap_cons, hv]
          rw [hstep, List.map_cons]
          exact ih.cons c.name
      | some v =>
          by_cases hvn : v = PropValue.vNull
          · have hstep : schemaProjection (c :: cs) ps = schemaProjection cs ps := by
              simp [schemaProjection, List.filterMap_cons, hv, hvn]
            rw [hstep, List.map_cons]
            exact ih.cons c.name
          · have hstep : schemaProjection (c :: cs) ps =
                (c.name, v) :: schemaProjection cs ps := by
              simp [schemaProjection, List.filterMap_cons, hv, hvn]
            rw [hstep, List.map_cons, List.map_cons]
            exact ih.cons₂ c.name

/-- `parseEdgeProperties` inverts `encodeProps`: on a clean property map and
a duplicate-free schema of at most `2^16` columns, decoding the encoded block
— alone, or followed by an out-of-range ordinal and arbitrary junk — returns
exactly the projection of the map onto the schema. -/
theorem parseEdgeProperties_encodeProps (rt : JsRuntime) (cols : List ColumnMeta) (ps : Props)
    (enc suffix tail : List Nat)
    (henc : encodeProps rt cols ps 0 = .ok enc)
    (hclean : EncodesCleanly cols ps)
    (hnd : (cols.map ColumnMeta.name).Nodup)
    (hbound : cols.length ≤ 2 ^ 16)
    (hstop : suffix = [] ∨ cols.length ≤ readU16 ((enc ++ suffix) ++ tail) enc.length) :
    parseEdgeProperties (enc ++ suffix) tail (some cols) =
      .ok (schemaProjection cols ps) := by
  have hfold : (schemaProjection cols ps).foldl (fun a p => propSet a p.1 p.2) [] =
      schemaProjection cols ps := by
    rw [foldl_propSet_append (schemaProjection cols ps) [] (fun p _ => rfl)
      (hnd.sublist (schemaProjection_keys_sublist cols ps))]
    simp
  rw [parseEdgeProperties]
  by_cases hguard : (cols.isEmpty = true) ∨ ((enc ++ suffix).isEmpty = true)
  · rw [if_pos hguard]
    rcases hguard with hc | hp
    · have hc0 : cols = [] := List.isEmpty_iff.mp hc
      subst hc0
      rfl
    · have hp0 : enc ++ suffix = [] := List.isEmpty_iff.mp hp
      have henc0 : enc = [] := by
        rcases List.append_eq_nil.mp hp0 with ⟨h1, _⟩
        exact h1
      rw [henc0] at henc
      rw [encodeProps_nil_proj rt cols ps 0 henc]
  · rw [if_neg hguard]
    have hchunk := ppGo_chunk rt suffix tail cols ps hbound cols [] [] enc [] rfl henc hclean
    simp only [List.nil_append, List.length_nil, Nat.zero_add] at hchunk
    rw [hchunk, hfold]
    rcases hstop with hs | hs
    · subst hs
      rw [ppGo_terminal _ _ _ _ _ _ (by simp)]
    · rw [ppGo_stop _ _ _ _ _ _ hs]

/-- **C3.**  The property decoder stops without raising an error at the first
column ordinal that is not below the declared column count, returning the
properties decoded before the stop: the decoding loop returns its accumulator
unchanged whenever the ordinal it reads is at least the column count
(whatever bytes surround it), and end-to-end, a property region consisting of
a cleanly encoded block followed by an out-of-range ordinal and arbitrary
junk decodes to exactly the projection of the property map onto the declared
schema, with no error. -/
theorem claim_C3 (rt : JsRuntime) (cols : List ColumnMeta) (ps : Props)
    (enc junk tail : List Nat) (k : Nat)
    (henc : encodeProps rt cols ps 0 = .ok enc)
    (hclean : EncodesCleanly cols ps)
    (hnd : (cols.map ColumnMeta.name).Nodup)
    (hbound : cols.length ≤ 2 ^ 16)
    (hk1 : cols.length ≤ k) (hk2 : k < 2 ^ 16) :
    (∀ (props tail2 : List Nat) (cols2 : List ColumnMeta) (fuel offset : Nat) (acc : Props),
        cols2.length ≤ readU16 (props ++ tail2) offset →
        ppGo props tail2 cols2 fuel offset acc = .ok acc) ∧
    parseEdgeProperties (enc ++ (u16le k ++ junk)) tail (some cols) =
      .ok (schemaProjection cols ps) := by
  refine ⟨fun props tail2 cols2 fuel offset acc h =>
    ppGo_stop props tail2 cols2 fuel offset acc h, ?_⟩
  apply parseEdgeProperties_encodeProps rt cols ps enc (u16le k ++ junk) tail henc hclean
    hnd hbound
  right
  have hsh : (enc ++ (u16le k ++ junk)) ++ tail = enc ++ (u16le k ++ (junk ++ tail)) := by
    simp
  rw [hsh, readU16_at, Nat.mod_eq_of_lt hk2]
  exact hk1

/-- Witness for `claim_C3`: a one-column Bool schema whose encoded block
`[0,0,1]` is followed by the out-of-range ordinal `5` and junk decodes to the
single boolean property and no error. -/
theorem claim_C3_witness :
    parseEdgeProperties (([0, 0, 1] : List Nat) ++ (u16le 5 ++ [7, 7])) []
        (some [⟨[98], ctBool⟩]) =
      .ok (schemaProjection [⟨[98], ctBool⟩] [([98], PropValue.vBool true)]) :=
  (claim_C3 ⟨fun _ => [], fun _ => 0, id, id, fun _ => [], fun _ => []⟩
    [⟨[98], ctBool⟩] [([98], PropValue.vBool true)] [0, 0, 1] [7, 7] [] 5
    (by decide) (by decide) (by decide) (by decide) (by decide) (by decide)).2

/-- The generator\x27s edge loop and the batch edge loop are the same
function. -/
theorem streamEdgesLoop_eq (bytes : List Nat) (columns : Option (List ColumnMeta)) :
    ∀ (n offset : Nat),
      streamEdgesLoop bytes columns offset n = parseEdgesLoop bytes columns offset n := by
  intro n
  induction n with
  | zero => intro offset; rfl
  | succ n ih =>
      intro offset
      rw [streamEdgesLoop, parseEdgesLoop]
      simp only [ih]

/-- The generator\x27s full output is the batch section parse, projected to its
edge list. -/
theorem deserializeGraphStream_eq (bytes : List Nat) (graphOffset : Nat) :
    deserializeGraphStream bytes graphOffset =
      (parseGraphSection bytes graphOffset).map AdjacencyList.edges := by
  simp only [deserializeGraphStream, parseGraphSection]
  rw [streamEdgesLoop_eq]
  cases hpe : parseEdgesLoop bytes (parseGraphHeader bytes (graphOffset + 4)).edgeColumns
      (graphOffset + 4 + readU32 bytes graphOffset)
      (parseGraphHeader bytes (graphOffset + 4)).edgeCount with
  | error e => rfl
  | ok es => rfl

/-- **C5.**  The edge sequence produced by the streaming reader equals,
element for element and in order, the batch reader\x27s
`adjacencyList.edges`; in particular both are empty when the locator reports
no graph section. -/
theorem claim_C5 {F : Type} (calcTreeSize : Nat → Nat → Nat)
    (iterateFeatures : List Nat → List F) (bytes : List Nat)
    (headerMeta : FeaturesHeaderMeta) :
    deserializeGraphEdges calcTreeSize bytes headerMeta =
      (deserialize calcTreeSize iterateFeatures bytes headerMeta).map
        (fun r => r.adjacencyList.edges) := by
  simp only [deserializeGraphEdges, deserialize]
  by_cases h : calculateFeaturesEndOffset calcTreeSize bytes headerMeta < bytes.length
  · rw [if_neg (by omega), if_pos h, deserializeGraphStream_eq]
    cases hpg : parseGraphSection bytes
        (calculateFeaturesEndOffset calcTreeSize bytes headerMeta) with
    | error e => rfl
    | ok al => rfl
  · rw [if_pos (by omega), if_neg h]
    rfl

/-- Witness for `claim_C5`: on a 22-byte file holding an empty header, no
features and an empty graph section, the streaming and batch readers agree. -/
theorem claim_C5_witness :
    deserializeGraphEdges (fun _ _ => 0)
        (([0, 0, 0, 0, 0, 0, 0, 0] : List Nat) ++ u32le 0 ++
          (u32le 6 ++ u32le 0 ++ u16le 0)) ⟨0, 0⟩ =
      (deserialize (fun _ _ => 0) (fun _ => ([] : List Unit))
          (([0, 0, 0, 0, 0, 0, 0, 0] : List Nat) ++ u32le 0 ++
            (u32le 6 ++ u32le 0 ++ u16le 0)) ⟨0, 0⟩).map
        (fun r => r.adjacencyList.edges) :=
  claim_C5 (fun _ _ => 0) (fun _ => ([] : List Unit)) _ _

theorem countP_map_eq_zero {α β : Type} (p : β → Bool) (f : α → β) (l : List α)
    (h : ∀ a, p (f a) = false) : (l.map f).countP p = 0 := by
  induction l with
  | nil => rfl
  | cons a r ih => simp [List.countP_cons, h, ih]

/-- `parseGraphHeader` yields `edgeColumns = null` when the stored column
count is zero. -/
theorem parseGraphHeader_zero_columns (bs : List Nat) (off : Nat)
    (h : readU16 bs (off + 4) = 0) : (parseGraphHeader bs off).edgeColumns = none := by
  simp [parseGraphHeader, h, parseColumns]

/-- `parseGraphHeader` never yields an empty column list (it yields `null`
instead). -/
theorem parseGraphHeader_ne_some_nil (bs : List Nat) (off : Nat) :
    (parseGraphHeader bs off).edgeColumns ≠ some [] := by
  by_cases he : (parseColumns bs off 6 (readU16 bs (off + 4))).isEmpty
  · simp [parseGraphHeader, he]
  · simp only [parseGraphHeader, if_neg he]
    intro hc
    injection hc with hc
    rw [hc] at he
    exact he rfl

/-- **C9.**  `deserialize` raises the observer event exactly once when the
callback is supplied (never otherwise), positioned after the feature-header
and graph-header events and before every feature or edge materialization;
the observer\x27s graph meta is `null` exactly when the locator reports no
graph section, and is never a graph header with an empty (rather than
absent) column list; and in general the parsed graph header\x27s
`edgeColumns` is `null` — never an empty list — when the stored column count
is zero. -/
theorem claim_C9 {F : Type} (calcTreeSize : Nat → Nat → Nat)
    (iterateFeatures : List Nat → List F) (bytes : List Nat)
    (headerMeta : FeaturesHeaderMeta) :
    ((deserializeEvents calcTreeSize iterateFeatures bytes headerMeta true).countP
        isObserverEvent = 1) ∧
    ((deserializeEvents calcTreeSize iterateFeatures bytes headerMeta false).countP
        isObserverEvent = 0) ∧
    (∃ graphMeta pre post,
      deserializeEvents calcTreeSize iterateFeatures bytes headerMeta true =
        pre ++ DeserializeEvent.observerCalled headerMeta graphMeta :: post ∧
      (∀ ev ∈ pre, isHeaderEvent ev = true) ∧
      (∀ ev ∈ post, isMaterializeEvent ev = true) ∧
      (graphMeta = none ↔
        ¬calculateFeaturesEndOffset calcTreeSize bytes headerMeta < bytes.length) ∧
      (∀ gm, graphMeta = some gm → gm.edgeColumns ≠ some [])) ∧
    (∀ (bs : List Nat) (off : Nat),
      (readU16 bs (off + 4) = 0 → (parseGraphHeader bs off).edgeColumns = none) ∧
      (parseGraphHeader bs off).edgeColumns ≠ some []) := by
  refine ⟨?_, ?_, ?_, fun bs off =>
    ⟨fun h => parseGraphHeader_zero_columns bs off h, parseGraphHeader_ne_some_nil bs off⟩⟩
  · by_cases h : calculateFeaturesEndOffset calcTreeSize bytes headerMeta < bytes.length
    · cases hpg : parseGraphSection bytes
          (calculateFeaturesEndOffset calcTreeSize bytes headerMeta) with
      | error e =>
          simp [deserializeEvents, h, hpg, Except.map, List.countP_append, List.countP_cons,
            isObserverEvent, countP_map_eq_zero, List.mem_map]
      | ok al =>
          simp [deserializeEvents, h, hpg, Except.map, List.countP_append, List.countP_cons,
            isObserverEvent, countP_map_eq_zero, List.mem_map]
    · simp [deserializeEvents, h, Except.map, List.countP_append, List.countP_cons,
        isObserverEvent, countP_map_eq_zero, List.mem_map]
  · by_cases h : calculateFeaturesEndOffset calcTreeSize bytes headerMeta < bytes.length
    · cases hpg : parseGraphSection bytes
          (calculateFeaturesEndOffset calcTreeSize bytes headerMeta) with
      | error e =>
          simp [deserializeEvents, h, hpg, Except.map, List.countP_append, List.countP_cons,
            isObserverEvent, countP_map_eq_zero, List.mem_map]
      | ok al =>
          simp [deserializeEvents, h, hpg, Except.map, List.countP_append, List.countP_cons,
            isObserverEvent, countP_map_eq_zero, List.mem_map]
    · simp [deserializeEvents, h, Except.map, List.countP_append, List.countP_cons,
        isObserverEvent, countP_map_eq_zero, List.mem_map]
  · by_cases h : calculateFeaturesEndOffset calcTreeSize bytes headerMeta < bytes.length
    · refine ⟨some (parseGraphSectionHeader bytes
          (calculateFeaturesEndOffset calcTreeSize bytes headerMeta)),
        [DeserializeEvent.featureHeaderParsed headerMeta,
          DeserializeEvent.graphHeaderParsed (parseGraphSectionHeader bytes
            (calculateFeaturesEndOffset calcTreeSize bytes headerMeta))],
        (iterateFeatures bytes).map DeserializeEvent.featureMaterialized ++
          (match (parseGraphSection bytes
              (calculateFeaturesEndOffset calcTreeSize bytes headerMeta)).map
              AdjacencyList.edges with
           | .ok es => es.map DeserializeEvent.edgeMaterialized
           | .error _ => []), ?_, ?_, ?_, ?_, ?_⟩
      · simp [deserializeEvents, h]
      · intro ev hev
        simp only [List.mem_cons, List.not_mem_nil, or_false] at hev
        rcases hev with rfl | rfl <;> rfl
      · intro ev hev
        rcases List.mem_append.mp hev with hev | hev
        · obtain ⟨a, _, rfl⟩ := List.mem_map.mp hev
          rfl
        · cases hpg : (parseGraphSection bytes
              (calculateFeaturesEndOffset calcTreeSize bytes headerMeta)).map
              AdjacencyList.edges with
          | error e => rw [hpg] at hev; cases hev
          | ok es =>
              rw [hpg] at hev
              obtain ⟨a, _, rfl⟩ := List.mem_map.mp hev
              rfl
      · simp [h]
      · intro gm hgm
        injection hgm with hgm
        rw [← hgm]
        exact parseGraphHeader_ne_some_nil bytes _
    · refine ⟨none, [DeserializeEvent.featureHeaderParsed headerMeta],
        (iterateFeatures bytes).map DeserializeEvent.featureMaterialized, ?_, ?_, ?_, ?_, ?_⟩
      · simp [deserializeEvents, h]
      · intro ev hev
        simp only [List.mem_singleton] at hev
        subst hev
        rfl
      · intro ev hev
        obtain ⟨a, _, rfl⟩ := List.mem_map.mp hev
        rfl
      · simp [h]
      · intro gm hgm
        cases hgm

/-- Witness for `claim_C9`: on a 22-byte file with an empty graph section and
the observer supplied, the observer event occurs exactly once. -/
theorem claim_C9_witness :
    (deserializeEvents (fun _ _ => 0) (fun _ => ([] : List Unit))
        (([0, 0, 0, 0, 0, 0, 0, 0] : List Nat) ++ u32le 0 ++
          (u32le 6 ++ u32le 0 ++ u16le 0)) ⟨0, 0⟩ true).countP isObserverEvent = 1 :=
  (claim_C9 (fun _ _ => 0) (fun _ => ([] : List Unit))
    (([0, 0, 0, 0, 0, 0, 0, 0] : List Nat) ++ u32le 0 ++
      (u32le 6 ++ u32le 0 ++ u16le 0)) ⟨0, 0⟩).1

theorem readU16_drop (bs : List Nat) (n off : Nat) :
    readU16 (bs.drop n) off = readU16 bs (n + off) := by
  simp [readU16, byteAt_drop, Nat.add_assoc]

/-- `parseColumns` only reads at or after its offset. -/
theorem parseColumns_drop (bytes : List Nat) (offset : Nat) :
    ∀ (n pos : Nat), parseColumns bytes offset pos n = parseColumns (bytes.drop offset) 0 pos n := by
  intro n
  induction n with
  | zero => intro pos; rfl
  | succ n ih =>
      intro pos
      rw [parseColumns, parseColumns]
      rw [show readU16 (bytes.drop offset) (0 + pos) = readU16 bytes (offset + pos) by
        rw [readU16_drop]; congr 1; omega]
      rw [show (bytes.drop offset).drop (0 + pos + 2) =
          bytes.drop (offset + pos + 2) by
        rw [List.drop_drop]; congr 1; omega]
      rw [show byteAt (bytes.drop offset) (0 + pos + 2 + readU16 bytes (offset + pos)) =
          byteAt bytes (offset + pos + 2 + readU16 bytes (offset + pos)) by
        rw [byteAt_drop]; congr 1; omega]
      rw [ih]

/-- `parseGraphHeader` only reads at or after its offset. -/
theorem parseGraphHeader_drop (bytes : List Nat) (offset : Nat) :
    parseGraphHeader bytes offset = parseGraphHeader (bytes.drop offset) 0 := by
  simp only [parseGraphHeader]
  rw [show readU32 (bytes.drop offset) 0 = readU32 bytes offset by
    rw [readU32_drop]
    rfl]
  rw [show readU16 (bytes.drop offset) (0 + 4) = readU16 bytes (offset + 4) by
    rw [readU16_drop]]
  rw [show parseColumns (bytes.drop offset) 0 6 (readU16 bytes (offset + 4)) =
    parseColumns bytes offset 6 (readU16 bytes (offset + 4)) from
      (parseColumns_drop bytes offset _ 6).symm]

/-- Inversion of a successful `buildEdgeRecord`: the edge is valid and the
record is `[size][from][to][props]`. -/
theorem buildEdgeRecord_inv (rt : JsRuntime) (e : EdgeInput) (cols : Option (List ColumnMeta))
    (fc : Nat) (r : List Nat) (h : buildEdgeRecord rt e cols fc = .ok r) :
    validEdge fc e ∧ ∃ pb, encodeEdgeProperties rt e.properties cols = .ok pb ∧
      r = u32le (8 + pb.length) ++ u32le e.fromIdx.toNat ++ u32le e.toIdx.toNat ++ pb := by
  unfold buildEdgeRecord at h
  by_cases h1 : e.fromIdx < 0 ∨ e.fromIdx ≥ (fc : Int)
  · rw [if_pos h1] at h
    exact absurd h (by simp)
  · rw [if_neg h1] at h
    by_cases h2 : e.toIdx < 0 ∨ e.toIdx ≥ (fc : Int)
    · rw [if_pos h2] at h
      exact absurd h (by simp)
    · rw [if_neg h2] at h
      by_cases h3 : e.fromIdx = e.toIdx
      · rw [if_pos h3] at h
        exact absurd h (by simp)
      · rw [if_neg h3] at h
        refine ⟨⟨by omega, by omega, by omega, by omega, h3⟩, ?_⟩
        match hpb : encodeEdgeProperties rt e.properties cols with
        | .error msg =>
            rw [hpb] at h
            simp [Bind.bind, Except.bind] at h
        | .ok pb =>
            rw [hpb] at h
            simp only [Bind.bind, Except.bind] at h
            injection h with h
            exact ⟨pb, rfl, h.symm⟩

/-- The schema inferred by `introspectEdgeColumns` is never empty. -/
theorem introspect_ne_nil (edges : List EdgeInput) (cols : List ColumnMeta)
    (h : introspectEdgeColumns edges = some cols) : cols ≠ [] := by
  unfold introspectEdgeColumns at h
  match hf : edges.find? hasProps with
  | none => simp [hf] at h
  | some e =>
      have hpred : hasProps e := List.find?_some hf
      match hp : e.properties with
      | none => simp [hf, hp] at h
      | some ps =>
          simp only [hf, hp] at h
          injection h with h
          subst h
          rw [hasProps, hp] at hpred
          intro hc
          rw [List.map_eq_nil_iff] at hc
          subst hc
          simp at hpred

/-- Every inferred column type is below 256, so it survives the one-byte
store. -/
theorem introspect_types_lt (edges : List EdgeInput) (cols : List ColumnMeta)
    (h : introspectEdgeColumns edges = some cols) : ∀ c ∈ cols, c.type < 256 := by
  intro c hc
  rcases introspect_types edges cols h c hc with ht | ht | ht | ht | ht <;>
    rw [ht] <;> decide

/-- `parseEdge` on a record `buildEdgeRecord` produced under a non-empty
schema: the indices come back exactly and the properties decode to the schema
projection of the map that was encoded. -/
theorem parseEdge_encoded (rt : JsRuntime) (cols : List ColumnMeta) (ps : Props)
    (pre pb rest : List Nat) (f t : Nat)
    (hcne : cols ≠ [])
    (hnd : (cols.map ColumnMeta.name).Nodup)
    (hbound : cols.length ≤ 2 ^ 16)
    (henc : encodeProps rt cols ps 0 = .ok pb)
    (hclean : EncodesCleanly cols ps)
    (hf : f < 2 ^ 32) (ht : t < 2 ^ 32) :
    parseEdge (pre ++ (u32le (8 + pb.length) ++ u32le f ++ u32le t ++ pb) ++ rest)
        (pre.length + 4) (8 + pb.length) (some cols) =
      .ok ⟨f, t, schemaProjection cols ps⟩ := by
  have hcne' : cols.isEmpty = false := by
    cases cols with
    | nil => exact absurd rfl hcne
    | cons a l => rfl
  have hfread : readU32 (pre ++ (u32le (8 + pb.length) ++ u32le f ++ u32le t ++ pb) ++ rest)
      (pre.length + 4) = f := by
    have hpos : pre.length + 4 = (pre ++ u32le (8 + pb.length)).length := by
      simp only [List.length_append, u32le_length]
    have hsh : pre ++ (u32le (8 + pb.length) ++ u32le f ++ u32le t ++ pb) ++ rest =
        (pre ++ u32le (8 + pb.length)) ++ (u32le f ++ (u32le t ++ pb ++ rest)) := by
      simp
    rw [hsh, hpos, readU32_at, Nat.mod_eq_of_lt hf]
  have htread : readU32 (pre ++ (u32le (8 + pb.length) ++ u32le f ++ u32le t ++ pb) ++ rest)
      (pre.length + 4 + 4) = t := by
    have hpos : pre.length + 4 + 4 = (pre ++ u32le (8 + pb.length) ++ u32le f).length := by
      simp only [List.length_append, u32le_length]
    have hsh : pre ++ (u32le (8 + pb.length) ++ u32le f ++ u32le t ++ pb) ++ rest =
        (pre ++ u32le (8 + pb.length) ++ u32le f) ++ (u32le t ++ (pb ++ rest)) := by
      simp
    rw [hsh, hpos, readU32_at, Nat.mod_eq_of_lt ht]
  simp only [parseEdge, hfread, htread]
  by_cases hpb0 : pb = []
  · subst hpb0
    rw [if_neg (by simp)]
    rw [encodeProps_nil_proj rt cols ps 0 henc]
  · rw [if_pos ⟨by simp [hcne'], by
      have : pb.length ≠ 0 := fun hz => hpb0 (List.length_eq_zero.mp hz)
      omega⟩]
    have harith : 8 + pb.length - 8 = pb.length := by omega
    have hdrop : (pre ++ (u32le (8 + pb.length) ++ u32le f ++ u32le t ++ pb) ++ rest).drop
        (pre.length + 4 + 8) = pb ++ rest := by
      have hpos : pre.length + 4 + 8 =
          (pre ++ u32le (8 + pb.length) ++ u32le f ++ u32le t).length := by
        simp only [List.length_append, u32le_length]
      have hsh : pre ++ (u32le (8 + pb.length) ++ u32le f ++ u32le t ++ pb) ++ rest =
          (pre ++ u32le (8 + pb.length) ++ u32le f ++ u32le t) ++ (pb ++ rest) := by
        simp
      rw [hsh, hpos, drop_at]
    rw [harith, hdrop, take_at]
    have hpp := parseEdgeProperties_encodeProps rt cols ps pb []
      ((pre ++ (u32le (8 + pb.length) ++ u32le f ++ u32le t ++ pb) ++ rest).drop
        (pre.length + 4 + 8 + pb.length))
      henc hclean hnd hbound (Or.inl rfl)
    rw [List.append_nil] at hpp
    rw [hpp]
    rfl

/-- `encodeProps` of the empty property map emits nothing. -/
theorem encodeProps_nilProps (rt : JsRuntime) (cols : List ColumnMeta) :
    ∀ i, encodeProps rt cols [] i = .ok [] := by
  induction cols with
  | nil => intro i; rfl
  | cons c cs ih =>
      intro i
      rw [encodeProps]
      exact ih (i + 1)

/-- A successful `encodeEdgeProperties` under a non-empty schema is the
`encodeProps` run on the map (defaulting a missing map to the empty map). -/
theorem encodeEdgeProperties_getD (rt : JsRuntime) (props : Option Props)
    (cols : List ColumnMeta) (pb : List Nat) (hcne : cols ≠ [])
    (h : encodeEdgeProperties rt props (some cols) = .ok pb) :
    encodeProps rt cols (props.getD []) 0 = .ok pb := by
  match cols, hcne with
  | [], hcne => exact absurd rfl hcne
  | c :: cs, _ =>
      cases props with
      | none =>
          simp only [encodeEdgeProperties] at h
          injection h with h
          subst h
          exact encodeProps_nilProps rt (c :: cs) 0
      | some ps => exact h

/-- The batch edge loop over the records `buildEdgeRecords` emitted under a
non-empty schema decodes every edge to its indices and the schema projection
of its property map. -/
theorem parseEdgesLoop_build (rt : JsRuntime) (cols : List ColumnMeta) (fc : Nat)
    (hcne : cols ≠ [])
    (hnd : (cols.map ColumnMeta.name).Nodup)
    (hbound : cols.length ≤ 2 ^ 16)
    (hfc : fc ≤ 2 ^ 32) :
    ∀ (edges : List EdgeInput) (rbs : List (List Nat)) (pre rest : List Nat),
      buildEdgeRecords rt edges (some cols) fc = .ok rbs →
      (∀ e ∈ edges, EncodesCleanly cols (e.properties.getD [])) →
      (∀ e ∈ edges, ∀ pb, encodeEdgeProperties rt e.properties (some cols) = .ok pb →
        8 + pb.length < 2 ^ 32) →
      parseEdgesLoop (pre ++ rbs.flatten ++ rest) (some cols) pre.length edges.length =
        .ok (edges.map fun e =>
          ⟨e.fromIdx.toNat, e.toIdx.toNat, schemaProjection cols (e.properties.getD [])⟩) := by
  intro edges
  induction edges with
  | nil =>
      intro rbs pre rest _ _ _
      rfl
  | cons e es ih =>
      intro rbs pre rest hrecs hclean hsmall
      match hr : buildEdgeRecord rt e (some cols) fc with
      | .error msg =>
          rw [buildEdgeRecords, hr] at hrecs
          simp [Bind.bind, Except.bind] at hrecs
      | .ok r =>
          match hrs : buildEdgeRecords rt es (some cols) fc with
          | .error msg =>
              rw [buildEdgeRecords, hr, hrs] at hrecs
              simp [Bind.bind, Except.bind] at hrecs
          | .ok rs =>
              rw [buildEdgeRecords, hr, hrs] at hrecs
              simp only [Bind.bind, Except.bind] at hrecs
              injection hrecs with hrecs
              subst hrecs
              obtain ⟨hval, pb, hpb, hrshape⟩ := buildEdgeRecord_inv rt e (some cols) fc r hr
              subst hrshape
              have hsize : 8 + pb.length < 2 ^ 32 := hsmall e (by simp) pb hpb
              have hfrom : e.fromIdx.toNat < 2 ^ 32 := by
                obtain ⟨hv1, hv2, _, _, _⟩ := hval
                omega
              have hto : e.toIdx.toNat < 2 ^ 32 := by
                obtain ⟨_, _, hv3, hv4, _⟩ := hval
                omega
              have hps : encodeProps rt cols (e.properties.getD []) 0 = .ok pb :=
                encodeEdgeProperties_getD rt e.properties cols pb hcne hpb
              have hsizeread : readU32 (pre ++ ((u32le (8 + pb.length) ++ u32le e.fromIdx.toNat
                    ++ u32le e.toIdx.toNat ++ pb) :: rs).flatten ++ rest) pre.length =
                  8 + pb.length := by
                have hsh : pre ++ ((u32le (8 + pb.length) ++ u32le e.fromIdx.toNat
                      ++ u32le e.toIdx.toNat ++ pb) :: rs).flatten ++ rest =
                    pre ++ (u32le (8 + pb.length) ++ (u32le e.fromIdx.toNat
                      ++ u32le e.toIdx.toNat ++ pb ++ rs.flatten ++ rest)) := by
                  simp [List.flatten_cons]
                rw [hsh, readU32_at, Nat.mod_eq_of_lt hsize]
              have hedge : parseEdge (pre ++ ((u32le (8 + pb.length) ++ u32le e.fromIdx.toNat
                    ++ u32le e.toIdx.toNat ++ pb) :: rs).flatten ++ rest)
                  (pre.length + 4) (8 + pb.length) (some cols) =
                  .ok ⟨e.fromIdx.toNat, e.toIdx.toNat,
                    schemaProjection cols (e.properties.getD [])⟩ := by
                have hsh : pre ++ ((u32le (8 + pb.length) ++ u32le e.fromIdx.toNat
                      ++ u32le e.toIdx.toNat ++ pb) :: rs).flatten ++ rest =
                    pre ++ (u32le (8 + pb.length) ++ u32le e.fromIdx.toNat
                      ++ u32le e.toIdx.toNat ++ pb) ++ (rs.flatten ++ rest) := by
                  simp [List.flatten_cons]
                rw [hsh]
                exact parseEdge_encoded rt cols (e.properties.getD []) pre pb
                  (rs.flatten ++ rest) e.fromIdx.toNat e.toIdx.toNat hcne hnd hbound hps
                  (hclean e (by simp)) hfrom hto
              have hih : parseEdgesLoop (pre ++ ((u32le (8 + pb.length) ++ u32le e.fromIdx.toNat
                    ++ u32le e.toIdx.toNat ++ pb) :: rs).flatten ++ rest) (some cols)
                  (pre.length + 4 + (8 + pb.length)) es.length =
                  .ok (es.map fun d => ⟨d.fromIdx.toNat, d.toIdx.toNat,
                    schemaProjection cols (d.properties.getD [])⟩) := by
                have hsh : pre ++ ((u32le (8 + pb.length) ++ u32le e.fromIdx.toNat
                      ++ u32le e.toIdx.toNat ++ pb) :: rs).flatten ++ rest =
                    (pre ++ (u32le (8 + pb.length) ++ u32le e.fromIdx.toNat
                      ++ u32le e.toIdx.toNat ++ pb)) ++ rs.flatten ++ rest := by
                  simp [List.flatten_cons]
                have hoff : pre.length + 4 + (8 + pb.length) =
                    (pre ++ (u32le (8 + pb.length) ++ u32le e.fromIdx.toNat
                      ++ u32le e.toIdx.toNat ++ pb)).length := by
                  simp only [List.length_append, u32le_length]
                  omega
                rw [hsh, hoff]
                exact ih rs (pre ++ (u32le (8 + pb.length) ++ u32le e.fromIdx.toNat
                    ++ u32le e.toIdx.toNat ++ pb)) rest hrs
                  (fun d hd => hclean d (by simp [hd]))
                  (fun d hd pb2 hpb2 => hsmall d (by simp [hd]) pb2 hpb2)
              show parseEdgesLoop _ (some cols) pre.length (es.length + 1) = _
              rw [parseEdgesLoop]
              simp only [hsizeread, hedge, hih, Bind.bind, Except.bind, List.map_cons]

/-- The batch edge loop over the records `buildEdgeRecords` emitted with no
schema decodes every edge to its indices and an empty property map. -/
theorem parseEdgesLoop_none_build (rt : JsRuntime) (fc : Nat) (hfc : fc ≤ 2 ^ 32) :
    ∀ (edges : List EdgeInput) (rbs : List (List Nat)) (pre rest : List Nat),
      buildEdgeRecords rt edges none fc = .ok rbs →
      parseEdgesLoop (pre ++ rbs.flatten ++ rest) none pre.length edges.length =
        .ok (edges.map fun e => ⟨e.fromIdx.toNat, e.toIdx.toNat, []⟩) := by
  intro edges
  induction edges with
  | nil =>
      intro rbs pre rest _
      rfl
  | cons e es ih =>
      intro rbs pre rest hrecs
      match hr : buildEdgeRecord rt e none fc with
      | .error msg =>
          rw [buildEdgeRecords, hr] at hrecs
          simp [Bind.bind, Except.bind] at hrecs
      | .ok r =>
          match hrs : buildEdgeRecords rt es none fc with
          | .error msg =>
              rw [buildEdgeRecords, hr, hrs] at hrecs
              simp [Bind.bind, Except.bind] at hrecs
          | .ok rs =>
              rw [buildEdgeRecords, hr, hrs] at hrecs
              simp only [Bind.bind, Except.bind] at hrecs
              injection hrecs with hrecs
              subst hrecs
              obtain ⟨hval, pb, hpb, hrshape⟩ := buildEdgeRecord_inv rt e none fc r hr
              subst hrshape
              have hpb0 : pb = [] := by
                simp only [encodeEdgeProperties] at hpb
                injection hpb with hpb
                exact hpb.symm
              have hsize : 8 + pb.length < 2 ^ 32 := by
                rw [hpb0]
                decide
              have hfrom : e.fromIdx.toNat < 2 ^ 32 := by
                obtain ⟨hv1, hv2, _, _, _⟩ := hval
                omega
              have hto : e.toIdx.toNat < 2 ^ 32 := by
                obtain ⟨_, _, hv3, hv4, _⟩ := hval
                omega
              have hsizeread : readU32 (pre ++ ((u32le (8 + pb.length) ++ u32le e.fromIdx.toNat
                    ++ u32le e.toIdx.toNat ++ pb) :: rs).flatten ++ rest) pre.length =
                  8 + pb.length := by
                have hsh : pre ++ ((u32le (8 + pb.length) ++ u32le e.fromIdx.toNat
                      ++ u32le e.toIdx.toNat ++ pb) :: rs).flatten ++ rest =
                    pre ++ (u32le (8 + pb.length) ++ (u32le e.fromIdx.toNat
                      ++ u32le e.toIdx.toNat ++ pb ++ rs.flatten ++ rest)) := by
                  simp [List.flatten_cons]
                rw [hsh, readU32_at, Nat.mod_eq_of_lt hsize]
              have hfread : readU32 (pre ++ ((u32le (8 + pb.length) ++ u32le e.fromIdx.toNat
                    ++ u32le e.toIdx.toNat ++ pb) :: rs).flatten ++ rest)
                  (pre.length + 4) = e.fromIdx.toNat := by
                have hpos : pre.length + 4 = (pre ++ u32le (8 + pb.length)).length := by
                  simp only [List.length_append, u32le_length]
                have hsh : pre ++ ((u32le (8 + pb.length) ++ u32le e.fromIdx.toNat
                      ++ u32le e.toIdx.toNat ++ pb) :: rs).flatten ++ rest =
                    (pre ++ u32le (8 + pb.length)) ++ (u32le e.fromIdx.toNat ++
                      (u32le e.toIdx.toNat ++ pb ++ rs.flatten ++ rest)) := by
                  simp [List.flatten_cons]
                rw [hsh, hpos, readU32_at, Nat.mod_eq_of_lt hfrom]
              have htread : readU32 (pre ++ ((u32le (8 + pb.length) ++ u32le e.fromIdx.toNat
                    ++ u32le e.toIdx.toNat ++ pb) :: rs).flatten ++ rest)
                  (pre.length + 4 + 4) = e.toIdx.toNat := by
                have hpos : pre.length + 4 + 4 =
                    (pre ++ u32le (8 + pb.length) ++ u32le e.fromIdx.toNat).length := by
                  simp only [List.length_append, u32le_length]
                have hsh : pre ++ ((u32le (8 + pb.length) ++ u32le e.fromIdx.toNat
                      ++ u32le e.toIdx.toNat ++ pb) :: rs).flatten ++ rest =
                    (pre ++ u32le (8 + pb.length) ++ u32le e.fromIdx.toNat) ++
                      (u32le e.toIdx.toNat ++ (pb ++ rs.flatten ++ rest)) := by
                  simp [List.flatten_cons]
                rw [hsh, hpos, readU32_at, Nat.mod_eq_of_lt hto]
              have hedge : parseEdge (pre ++ ((u32le (8 + pb.length) ++ u32le e.fromIdx.toNat
                    ++ u32le e.toIdx.toNat ++ pb) :: rs).flatten ++ rest)
                  (pre.length + 4) (8 + pb.length) none =
                  .ok ⟨e.fromIdx.toNat, e.toIdx.toNat, []⟩ := by
                simp only [parseEdge, hfread, htread]
              have hih : parseEdgesLoop (pre ++ ((u32le (8 + pb.length) ++ u32le e.fromIdx.toNat
                    ++ u32le e.toIdx.toNat ++ pb) :: rs).flatten ++ rest) none
                  (pre.length + 4 + (8 + pb.length)) es.length =
                  .ok (es.map fun d => ⟨d.fromIdx.toNat, d.toIdx.toNat, []⟩) := by
                have hsh : pre ++ ((u32le (8 + pb.length) ++ u32le e.fromIdx.toNat
                      ++ u32le e.toIdx.toNat ++ pb) :: rs).flatten ++ rest =
                    (pre ++ (u32le (8 + pb.length) ++ u32le e.fromIdx.toNat
                      ++ u32le e.toIdx.toNat ++ pb)) ++ rs.flatten ++ rest := by
                  simp [List.flatten_cons]
                have hoff : pre.length + 4 + (8 + pb.length) =
                    (pre ++ (u32le (8 + pb.length) ++ u32le e.fromIdx.toNat
                      ++ u32le e.toIdx.toNat ++ pb)).length := by
                  simp only [List.length_append, u32le_length]
                  omega
                rw [hsh, hoff]
                exact ih rs (pre ++ (u32le (8 + pb.length) ++ u32le e.fromIdx.toNat
                    ++ u32le e.toIdx.toNat ++ pb)) rest hrs
              show parseEdgesLoop _ none pre.length (es.length + 1) = _
              rw [parseEdgesLoop]
              simp only [hsizeread, hedge, hih, Bind.bind, Except.bind, List.map_cons]

/-- `parseGraphSection` at the start of a section built by the writer
recovers every edge: the indices exactly, the properties as the schema
projection of the encoded map. -/
theorem parseGraphSection_build (rt : JsRuntime) (P : List Nat) (edges : List EdgeInput)
    (colsOpt : Option (List ColumnMeta)) (rbs : List (List Nat)) (fc : Nat)
    (hec : edges.length < 2 ^ 32)
    (hghl : (buildGraphHeader edges.length colsOpt).length < 2 ^ 32)
    (hrbs : buildEdgeRecords rt edges colsOpt fc = .ok rbs)
    (hfc : fc ≤ 2 ^ 32)
    (hnames : ∀ c ∈ colsOpt.getD [], c.name.length < 2 ^ 16)
    (hclen : (colsOpt.getD []).length < 2 ^ 16)
    (htypes : ∀ c ∈ colsOpt.getD [], c.type < 256)
    (hne : ∀ cols, colsOpt = some cols → cols ≠ [])
    (hnd : ((colsOpt.getD []).map ColumnMeta.name).Nodup)
    (hclean : ∀ e ∈ edges, EncodesCleanly (colsOpt.getD []) (e.properties.getD []))
    (hsmall : ∀ e ∈ edges, ∀ pb, encodeEdgeProperties rt e.properties colsOpt = .ok pb →
        8 + pb.length < 2 ^ 32) :
    parseGraphSection
        (P ++ (u32le (buildGraphHeader edges.length colsOpt).length ++
          buildGraphHeader edges.length colsOpt ++ rbs.flatten)) P.length =
      .ok ⟨edges.map fun e => ⟨e.fromIdx.toNat, e.toIdx.toNat,
        schemaProjection (colsOpt.getD []) (e.properties.getD [])⟩⟩ := by
  cases colsOpt with
  | none =>
      have hhs : readU32 (P ++ (u32le (buildGraphHeader edges.length none).length ++
          buildGraphHeader edges.length none ++ rbs.flatten)) P.length =
          (buildGraphHeader edges.length none).length := by
        rw [show P ++ (u32le (buildGraphHeader edges.length none).length ++
            buildGraphHeader edges.length none ++ rbs.flatten) =
            P ++ (u32le (buildGraphHeader edges.length none).length ++
              (buildGraphHeader edges.length none ++ rbs.flatten)) by simp,
          readU32_at, Nat.mod_eq_of_lt hghl]
      have hdr : (P ++ (u32le (buildGraphHeader edges.length none).length ++
          buildGraphHeader edges.length none ++ rbs.flatten)).drop (P.length + 4) =
          buildGraphHeader edges.length none ++ rbs.flatten := by
        rw [show P ++ (u32le (buildGraphHeader edges.length none).length ++
            buildGraphHeader edges.length none ++ rbs.flatten) =
            (P ++ u32le (buildGraphHeader edges.length none).length) ++
              (buildGraphHeader edges.length none ++ rbs.flatten) by simp,
          show P.length + 4 =
            (P ++ u32le (buildGraphHeader edges.length none).length).length by
            simp only [List.length_append, u32le_length]]
        exact drop_at _ _
      have hgh : parseGraphHeader (P ++ (u32le (buildGraphHeader edges.length none).length ++
          buildGraphHeader edges.length none ++ rbs.flatten)) (P.length + 4) =
          ⟨edges.length % 2 ^ 32, if ([] : List ColumnMeta).isEmpty then none
            else some (([] : List ColumnMeta).map fun c => ⟨c.name, c.type % 256⟩)⟩ := by
        rw [parseGraphHeader_drop, hdr,
          show buildGraphHeader edges.length none =
            buildGraphHeader edges.length (some []) from rfl]
        exact parseGraphHeader_build edges.length [] rbs.flatten
          (by intro c hc; cases hc) (by decide)
      have hghcols : (parseGraphHeader (P ++ (u32le (buildGraphHeader edges.length none).length
          ++ buildGraphHeader edges.length none ++ rbs.flatten))
          (P.length + 4)).edgeColumns = none := by
        rw [hgh]
        rfl
      have hghcount : (parseGraphHeader (P ++ (u32le (buildGraphHeader edges.length none).length
          ++ buildGraphHeader edges.length none ++ rbs.flatten))
          (P.length + 4)).edgeCount = edges.length := by
        rw [hgh]
        exact Nat.mod_eq_of_lt hec
      simp only [parseGraphSection, hhs, hghcols, hghcount]
      rw [show P ++ (u32le (buildGraphHeader edges.length none).length ++
          buildGraphHeader edges.length none ++ rbs.flatten) =
          (P ++ u32le (buildGraphHeader edges.length none).length ++
            buildGraphHeader edges.length none) ++ rbs.flatten ++ [] by simp,
        show P.length + 4 + (buildGraphHeader edges.length none).length =
          (P ++ u32le (buildGraphHeader edges.length none).length ++
            buildGraphHeader edges.length none).length by
          simp only [List.length_append, u32le_length]]
      rw [parseEdgesLoop_none_build rt fc hfc edges rbs
        (P ++ u32le (buildGraphHeader edges.length none).length ++
          buildGraphHeader edges.length none) [] hrbs]
      rfl
  | some cols =>
      have hcne : cols ≠ [] := hne cols rfl
      have hcneb : cols.isEmpty = false := by
        cases cols with
        | nil => exact absurd rfl hcne
        | cons a l => rfl
      have hmapid : cols.map (fun c => (⟨c.name, c.type % 256⟩ : ColumnMeta)) = cols := by
        have hid : ∀ c ∈ cols, (⟨c.name, c.type % 256⟩ : ColumnMeta) = c := by
          intro c hc
          have hmod : c.type % 256 = c.type := Nat.mod_eq_of_lt (htypes c hc)
          rw [hmod]
        calc cols.map (fun c => (⟨c.name, c.type % 256⟩ : ColumnMeta))
            = cols.map id := List.map_congr_left hid
          _ = cols := List.map_id cols
      have hhs : readU32 (P ++ (u32le (buildGraphHeader edges.length (some cols)).length ++
          buildGraphHeader edges.length (some cols) ++ rbs.flatten)) P.length =
          (buildGraphHeader edges.length (some cols)).length := by
        rw [show P ++ (u32le (buildGraphHeader edges.length (some cols)).length ++
            buildGraphHeader edges.length (some cols) ++ rbs.flatten) =
            P ++ (u32le (buildGraphHeader edges.length (some cols)).length ++
              (buildGraphHeader edges.length (some cols) ++ rbs.flatten)) by simp,
          readU32_at, Nat.mod_eq_of_lt hghl]
      have hdr : (P ++ (u32le (buildGraphHeader edges.length (some cols)).length ++
          buildGraphHeader edges.length (some cols) ++ rbs.flatten)).drop (P.length + 4) =
          buildGraphHeader edges.length (some cols) ++ rbs.flatten := by
        rw [show P ++ (u32le (buildGraphHeader edges.length (some cols)).length ++
            buildGraphHeader edges.length (some cols) ++ rbs.flatten) =
            (P ++ u32le (buildGraphHeader edges.length (some cols)).length) ++
              (buildGraphHeader edges.length (some cols) ++ rbs.flatten) by simp,
          show P.length + 4 =
            (P ++ u32le (buildGraphHeader edges.length (some cols)).length).length by
            simp only [List.length_append, u32le_length]]
        exact drop_at _ _
      have hgh : parseGraphHeader (P ++
          (u32le (buildGraphHeader edges.length (some cols)).length ++
            buildGraphHeader edges.length (some cols) ++ rbs.flatten)) (P.length + 4) =
          ⟨edges.length % 2 ^ 32, if cols.isEmpty then none
            else some (cols.map fun c => ⟨c.name, c.type % 256⟩)⟩ := by
        rw [parseGraphHeader_drop, hdr]
        exact parseGraphHeader_build edges.length cols rbs.flatten hnames hclen
      have hghcols : (parseGraphHeader (P ++
          (u32le (buildGraphHeader edges.length (some cols)).length ++
            buildGraphHeader edges.length (some cols) ++ rbs.flatten))
          (P.length + 4)).edgeColumns = some cols := by
        rw [hgh]
        show (if cols.isEmpty then none
          else some (cols.map fun c => (⟨c.name, c.type % 256⟩ : ColumnMeta))) = some cols
        rw [if_neg (by simp [hcneb] : ¬cols.isEmpty = true), hmapid]
      have hghcount : (parseGraphHeader (P ++
          (u32le (buildGraphHeader edges.length (some cols)).length ++
            buildGraphHeader edges.length (some cols) ++ rbs.flatten))
          (P.length + 4)).edgeCount = edges.length := by
        rw [hgh]
        exact Nat.mod_eq_of_lt hec
      simp only [parseGraphSection, hhs, hghcols, hghcount]
      rw [show P ++ (u32le (buildGraphHeader edges.length (some cols)).length ++
          buildGraphHeader edges.length (some cols) ++ rbs.flatten) =
          (P ++ u32le (buildGraphHeader edges.length (some cols)).length ++
            buildGraphHeader edges.length (some cols)) ++ rbs.flatten ++ [] by simp,
        show P.length + 4 + (buildGraphHeader edges.length (some cols)).length =
          (P ++ u32le (buildGraphHeader edges.length (some cols)).length ++
            buildGraphHeader edges.length (some cols)).length by
          simp only [List.length_append, u32le_length]]
      rw [parseEdgesLoop_build rt cols fc hcne hnd (Nat.le_of_lt hclen) hfc edges rbs
        (P ++ u32le (buildGraphHeader edges.length (some cols)).length ++
          buildGraphHeader edges.length (some cols)) [] hrbs hclean hsmall]
      rfl

/-- **C1 (amended).**  Round-trip: for every valid input whose edges satisfy
the write-side constraints and whose property values carry the type the
inferred schema assigns to their key (no schema-mismatched values, which the
bool/number/text encoders would coerce), `deserialize` after `serialize`
returns the edges in order, `from`/`to` exactly, and each property map equal
to the schema projection of the input map: missing and null-valued
properties omitted, keys outside the inferred schema dropped, in-schema
non-null values preserved.  (Size hypotheses keep every length within its
u16/u32 binary field.) -/
theorem claim_C1 {F : Type} (rt : JsRuntime) (calcTreeSize : Nat → Nat → Nat)
    (iterateFeatures : List Nat → List F) (hl : Nat) (hb : List Nat)
    (featureBytes : List (List Nat)) (edges : List EdgeInput)
    (hhb : hb.length = hl) (hhl : hl < 2 ^ 32)
    (hfr : ∀ fb ∈ featureBytes, framedFeature fb)
    (hfc : featureBytes.length ≤ 2 ^ 32)
    (hec : edges.length < 2 ^ 32)
    (hvalid : ∀ e ∈ edges, validEdge featureBytes.length e)
    (hghl : (buildGraphHeader edges.length (introspectEdgeColumns edges)).length < 2 ^ 32)
    (hnames : ∀ c ∈ (introspectEdgeColumns edges).getD [], c.name.length < 2 ^ 16)
    (hclen : ((introspectEdgeColumns edges).getD []).length < 2 ^ 16)
    (hnd : (((introspectEdgeColumns edges).getD []).map ColumnMeta.name).Nodup)
    (hclean : ∀ e ∈ edges,
      EncodesCleanly ((introspectEdgeColumns edges).getD []) (e.properties.getD []))
    (hsmall : ∀ e ∈ edges,
      8 + encodedPropsLen rt e.properties (introspectEdgeColumns edges) < 2 ^ 32) :
    ∃ bytes, serializeBytes rt (u32le hl ++ hb) featureBytes (some edges) = .ok bytes ∧
      deserialize calcTreeSize iterateFeatures bytes ⟨featureBytes.length, 0⟩ =
        .ok ⟨iterateFeatures bytes,
          ⟨edges.map fun e => ⟨e.fromIdx.toNat, e.toIdx.toNat,
            schemaProjection ((introspectEdgeColumns edges).getD [])
              (e.properties.getD [])⟩⟩⟩ := by
  have hencok : ∀ e ∈ edges, ∃ bs,
      encodeEdgeProperties rt e.properties (introspectEdgeColumns edges) = .ok bs :=
    fun e _ => encodeEdgeProperties_introspected_ok rt edges e.properties
  obtain ⟨rbs, hrbs⟩ := (buildEdgeRecords_ok_iff rt edges (introspectEdgeColumns edges)
    featureBytes.length hencok).mpr hvalid
  have hsmall2 : ∀ e ∈ edges, ∀ pb,
      encodeEdgeProperties rt e.properties (introspectEdgeColumns edges) = .ok pb →
      8 + pb.length < 2 ^ 32 := by
    intro e he pb hpb
    have h := hsmall e he
    simp only [encodedPropsLen, hpb] at h
    exact h
  have htypes : ∀ c ∈ (introspectEdgeColumns edges).getD [], c.type < 256 := by
    match hio : introspectEdgeColumns edges with
    | none =>
        intro c hc
        cases hc
    | some cols => exact introspect_types_lt edges cols hio
  have hne2 : ∀ cols, introspectEdgeColumns edges = some cols → cols ≠ [] :=
    fun cols h => introspect_ne_nil edges cols h
  refine ⟨magicbytes ++ (u32le hl ++ hb) ++ featureBytes.flatten ++
      (u32le (buildGraphHeader edges.length (introspectEdgeColumns edges)).length ++
        buildGraphHeader edges.length (introspectEdgeColumns edges) ++ rbs.flatten),
    ?_, ?_⟩
  · simp only [serializeBytes, buildGraphSection, hrbs, Bind.bind, Except.bind]
  · have hm8 : magicbytes.length = 8 := rfl
    rw [show magicbytes ++ (u32le hl ++ hb) ++ featureBytes.flatten ++
        (u32le (buildGraphHeader edges.length (introspectEdgeColumns edges)).length ++
          buildGraphHeader edges.length (introspectEdgeColumns edges) ++ rbs.flatten) =
        magicbytes ++ u32le hl ++ hb ++ featureBytes.flatten ++
        (u32le (buildGraphHeader edges.length (introspectEdgeColumns edges)).length ++
          buildGraphHeader edges.length (introspectEdgeColumns edges) ++ rbs.flatten)
        by simp]
    simp only [deserialize]
    have hend : calculateFeaturesEndOffset calcTreeSize
        (magicbytes ++ u32le hl ++ hb ++ featureBytes.flatten ++
          (u32le (buildGraphHeader edges.length (introspectEdgeColumns edges)).length ++
            buildGraphHeader edges.length (introspectEdgeColumns edges) ++ rbs.flatten))
        ⟨featureBytes.length, 0⟩ = 12 + hl + featureBytes.flatten.length :=
      calcEnd_eval calcTreeSize magicbytes hb hl featureBytes _ hm8 hhb hhl hfr
    rw [hend]
    have hlen : (magicbytes ++ u32le hl ++ hb ++ featureBytes.flatten ++
        (u32le (buildGraphHeader edges.length (introspectEdgeColumns edges)).length ++
          buildGraphHeader edges.length (introspectEdgeColumns edges) ++
            rbs.flatten)).length =
        12 + hl + featureBytes.flatten.length +
          (4 + (buildGraphHeader edges.length (introspectEdgeColumns edges)).length +
            rbs.flatten.length) := by
      simp only [List.length_append, u32le_length, hm8, hhb]
    rw [if_pos (by rw [hlen]; omega)]
    have hP : 12 + hl + featureBytes.flatten.length =
        (magicbytes ++ u32le hl ++ hb ++ featureBytes.flatten).length := by
      simp only [List.length_append, u32le_length, hm8, hhb]
    rw [hP]
    rw [show magicbytes ++ u32le hl ++ hb ++ featureBytes.flatten ++
        (u32le (buildGraphHeader edges.length (introspectEdgeColumns edges)).length ++
          buildGraphHeader edges.length (introspectEdgeColumns edges) ++ rbs.flatten) =
        (magicbytes ++ u32le hl ++ hb ++ featureBytes.flatten) ++
        (u32le (buildGraphHeader edges.length (introspectEdgeColumns edges)).length ++
          buildGraphHeader edges.length (introspectEdgeColumns edges) ++ rbs.flatten)
        by simp]
    rw [parseGraphSection_build rt (magicbytes ++ u32le hl ++ hb ++ featureBytes.flatten)
      edges (introspectEdgeColumns edges) rbs featureBytes.length hec hghl hrbs hfc
      hnames hclen htypes hne2 hnd hclean hsmall2]
    rfl

/-- **C1 counterexample.**  On a valid input — two features, the valid edge
list `[0→1 with {b: true}, 1→0 with {b: "x"}]` — the claim promises the
in-schema non-null property value `"x"` of the second edge back; the decoder
instead returns `true` for it (the inferred schema types `b` as Bool, and the
Bool encoder stores the JS truthiness of the mismatched string), so the
round-trip does not preserve in-schema non-null values as claimed. -/
theorem claim_C1_counterexample :
    (∀ e ∈ ([⟨0, 1, some [([98], PropValue.vBool true)]⟩,
        ⟨1, 0, some [([98], PropValue.vStr [120])]⟩] : List EdgeInput), validEdge 2 e) ∧
    (serializeBytes ⟨fun _ => [], fun _ => 0, id, id, fun _ => [], fun _ => []⟩
        (u32le 0) [u32le 0, u32le 0]
        (some [⟨0, 1, some [([98], PropValue.vBool true)]⟩,
          ⟨1, 0, some [([98], PropValue.vStr [120])]⟩])).map
        (fun bytes =>
          (deserialize (fun _ _ => 0) (fun _ => ([] : List Unit)) bytes ⟨2, 0⟩).map
            (fun r => r.adjacencyList.edges.map Edge.properties)) =
      .ok (.ok [[([98], PropValue.vBool true)], [([98], PropValue.vBool true)]]) ∧
    [([98], PropValue.vBool true)] ≠
      schemaProjection [⟨[98], ctBool⟩] [([98], PropValue.vStr [120])] := by
  refine ⟨by decide, by decide, by decide⟩

/-- Witness for `claim_C1`: the two-feature, two-edge input
`[0→1 with {w: 1.5}, 1→0]` serializes and deserializes back to its edges
with the `w` property intact. -/
theorem claim_C1_witness :
    ∃ bytes, serializeBytes ⟨fun _ => [], fun _ => 0, id, id, fun _ => [], fun _ => []⟩
        (u32le 0 ++ []) [u32le 0, u32le 0]
        (some [⟨0, 1, some [([119], PropValue.vF64 4609434218613702656)]⟩, ⟨1, 0, none⟩]) =
        .ok bytes ∧
      deserialize (fun _ _ => 0) (fun _ => ([] : List Unit)) bytes ⟨2, 0⟩ =
        .ok ⟨(fun _ => ([] : List Unit)) bytes,
          ⟨([⟨0, 1, some [([119], PropValue.vF64 4609434218613702656)]⟩,
              ⟨1, 0, none⟩] : List EdgeInput).map fun e =>
            ⟨e.fromIdx.toNat, e.toIdx.toNat,
              schemaProjection ((introspectEdgeColumns
                  [⟨0, 1, some [([119], PropValue.vF64 4609434218613702656)]⟩,
                    ⟨1, 0, none⟩]).getD [])
                (e.properties.getD [])⟩⟩⟩ :=
  claim_C1 ⟨fun _ => [], fun _ => 0, id, id, fun _ => [], fun _ => []⟩ (fun _ _ => 0)
    (fun _ => ([] : List Unit)) 0 [] [u32le 0, u32le 0]
    [⟨0, 1, some [([119], PropValue.vF64 4609434218613702656)]⟩, ⟨1, 0, none⟩]
    (by decide) (by decide) (by decide) (by decide) (by decide) (by decide) (by decide)
    (by decide) (by decide) (by decide) (by decide) (by decide)

/-- **C2.**  The encoded column schema is derived from the first
(front-to-back) edge whose property map is non-empty: decoding the built
graph header returns exactly that edge's keys in iteration order, each typed
Bool for booleans, Double for numbers, String for strings and for explicit
null, Binary for byte arrays, and Json for any other object; when no edge
carries a non-empty property map, the encoded column count is zero. -/
theorem claim_C2 (edges : List EdgeInput) (rest : List Nat)
    (hbound : ∀ e ∈ edges, ∀ ps, e.properties = some ps →
      ps.length < 2 ^ 16 ∧ ∀ p ∈ ps, p.1.length < 2 ^ 16) :
    match edges.find? hasProps with
    | some e => ∃ ps, e.properties = some ps ∧
        (parseGraphHeader (buildGraphHeader edges.length (introspectEdgeColumns edges) ++ rest)
            0).edgeColumns =
          some (ps.map fun p => ⟨p.1,
            match p.2 with
            | .vBool _ => ctBool
            | .vInt _ => ctDouble
            | .vF64 _ => ctDouble
            | .vF32 _ => ctDouble
            | .vStr _ => ctString
            | .vNull => ctString
            | .vBin _ => ctBinary
            | .vJson _ => ctJson⟩)
    | none => readU16 (buildGraphHeader edges.length (introspectEdgeColumns edges) ++ rest) 4 = 0
    := by
  match hf : edges.find? hasProps with
  | some e =>
      have hmem : e ∈ edges := List.mem_of_find?_eq_some hf
      have hpred : hasProps e := List.find?_some hf
      match hp : e.properties with
      | none => rw [hasProps, hp] at hpred; exact absurd hpred (by simp)
      | some ps =>
          refine ⟨ps, hp, ?_⟩
          have hintro : introspectEdgeColumns edges =
              some (ps.map fun p => ⟨p.1, valueToColumnType p.2⟩) := by
            simp [introspectEdgeColumns, hf, hp]
          obtain ⟨hcnt, hlens⟩ := hbound e hmem ps hp
          have hnames : ∀ c ∈ ps.map fun p => (⟨p.1, valueToColumnType p.2⟩ : ColumnMeta),
              c.name.length < 2 ^ 16 := by
            intro c hc
            simp only [List.mem_map] at hc
            obtain ⟨p, hpmem, hpc⟩ := hc
            subst hpc
            exact hlens p hpmem
          rw [hintro, parseGraphHeader_build edges.length _ rest hnames (by simpa using hcnt)]
          have hne : ps ≠ [] := by
            rw [hasProps, hp] at hpred
            simpa using hpred
          have hnonempty : ((ps.map fun p =>
              (⟨p.1, valueToColumnType p.2⟩ : ColumnMeta)).isEmpty) = false := by
            cases ps with
            | nil => exact absurd rfl hne
            | cons a l => rfl
          simp only [hnonempty, Bool.false_eq_true, if_false]
          rw [List.map_map]
          congr 1
          apply List.map_congr_left
          intro p _
          obtain ⟨pn, pv⟩ := p
          cases pv <;>
            simp [valueToColumnType, ctBool, ctDouble, ctString, ctJson, ctBinary]
  | none =>
      have hintro : introspectEdgeColumns edges = none := by
        unfold introspectEdgeColumns
        rw [hf]
      rw [hintro]
      have hshape : buildGraphHeader edges.length none ++ rest =
          u32le edges.length ++ (u16le 0 ++ rest) := by
        simp [buildGraphHeader]
      rw [hshape, show (4 : Nat) = (u32le edges.length).length by simp [u32le], readU16_append,
        readU16_u16le]
      simp

/-- Witness for `claim_C2`: for edges `[{0→1}, {1→2, {w: 1.5}}, {2→0, {q: "x"}}]`
the decoded schema is the second edge's single `w : Double` column. -/
theorem claim_C2_witness :
    match ([⟨0, 1, none⟩, ⟨1, 2, some [([119], .vF64 4609434218613702656)]⟩,
        ⟨2, 0, some [([113], .vStr [120])]⟩] : List EdgeInput).find? hasProps with
    | some e => ∃ ps, e.properties = some ps ∧
        (parseGraphHeader (buildGraphHeader 3 (introspectEdgeColumns
            [⟨0, 1, none⟩, ⟨1, 2, some [([119], .vF64 4609434218613702656)]⟩,
              ⟨2, 0, some [([113], .vStr [120])]⟩]) ++ []) 0).edgeColumns =
          some (ps.map fun p => ⟨p.1,
            match p.2 with
            | .vBool _ => ctBool
            | .vInt _ => ctDouble
            | .vF64 _ => ctDouble
            | .vF32 _ => ctDouble
            | .vStr _ => ctString
            | .vNull => ctString
            | .vBin _ => ctBinary
            | .vJson _ => ctJson⟩)
    | none => readU16 (buildGraphHeader 3 (introspectEdgeColumns
        [⟨0, 1, none⟩, ⟨1, 2, some [([119], .vF64 4609434218613702656)]⟩,
          ⟨2, 0, some [([113], .vStr [120])]⟩]) ++ []) 4 = 0 := by
  have h := claim_C2 [⟨0, 1, none⟩, ⟨1, 2, some [([119], .vF64 4609434218613702656)]⟩,
    ⟨2, 0, some [([113], .vStr [120])]⟩] [] (by decide)
  exact h

/-- **C6 (amended).**  The reader performs no magic verification before (or
while) locating the graph section: `isValidMagicBytes` is never invoked, no
`BadMagic` is raised, and the locator's result depends only on the buffer
length and the bytes from offset 8 onward (part one: two buffers of the same
length agreeing after their first eight bytes locate identically, whatever
those eight bytes are).  For a well-formed FGB file — or any file — whose
size-prefixed feature walk consumes the remainder, the locator returns the
whole file length, as a consequence of the walk rather than of a magic test
(part two). -/
theorem claim_C6 :
    (∀ (calcTreeSize : Nat → Nat → Nat) (b1 b2 : List Nat) (meta : FeaturesHeaderMeta),
      b1.length = b2.length → b1.drop 8 = b2.drop 8 →
      calculateFeaturesEndOffset calcTreeSize b1 meta =
        calculateFeaturesEndOffset calcTreeSize b2 meta) ∧
    (∀ (calcTreeSize : Nat → Nat → Nat) (hl : Nat) (hb : List Nat)
      (frames : List (List Nat)),
      hb.length = hl → hl < 2 ^ 32 → (∀ fb ∈ frames, framedFeature fb) →
      calculateFeaturesEndOffset calcTreeSize
          (fgbMagicBytes ++ u32le hl ++ hb ++ frames.flatten) ⟨frames.length, 0⟩ =
        (fgbMagicBytes ++ u32le hl ++ hb ++ frames.flatten).length) := by
  constructor
  · intro calcTreeSize b1 b2 meta hlen hdrop
    have hread : readU32 b1 8 = readU32 b2 8 := by
      have h1 : readU32 b1 8 = readU32 (b1.drop 8) 0 := by
        rw [readU32_drop]
      have h2 : readU32 b2 8 = readU32 (b2.drop 8) 0 := by
        rw [readU32_drop]
      rw [h1, h2, hdrop]
    simp only [calculateFeaturesEndOffset, hread]
    apply featuresWalk_congr b1 b2 hlen hdrop
    split <;> omega
  · intro calcTreeSize hl hb frames hhb hhl hfr
    have h := calcEnd_eval calcTreeSize fgbMagicBytes hb hl frames [] rfl hhb hhl hfr
    simp only [List.append_nil] at h
    rw [h]
    simp [fgbMagicBytes, u32le, hhb]
    omega

/-- Witness for `claim_C6`: replacing the FGG magic by eight zero bytes does
not change the located offset, and an FGB-magic file whose single feature
fills the remainder locates to the whole file length. -/
theorem claim_C6_witness :
    calculateFeaturesEndOffset (fun _ _ => 0)
        ([0, 0, 0, 0, 0, 0, 0, 0] ++ u32le 0 ++ u32le 1 ++ [9]) ⟨1, 0⟩ =
      calculateFeaturesEndOffset (fun _ _ => 0)
        (magicbytes ++ u32le 0 ++ u32le 1 ++ [9]) ⟨1, 0⟩ ∧
    calculateFeaturesEndOffset (fun _ _ => 0)
        (fgbMagicBytes ++ u32le 0 ++ ([(u32le 1 ++ [9])].flatten)) ⟨1, 0⟩ =
      (fgbMagicBytes ++ u32le 0 ++ ([(u32le 1 ++ [9])].flatten)).length := by
  constructor
  · exact (claim_C6.1 (fun _ _ => 0) ([0, 0, 0, 0, 0, 0, 0, 0] ++ u32le 0 ++ u32le 1 ++ [9])
      (magicbytes ++ u32le 0 ++ u32le 1 ++ [9]) ⟨1, 0⟩ (by decide) (by decide))
  · have h := claim_C6.2 (fun _ _ => 0) 0 [] [(u32le 1 ++ [9])] rfl (by norm_num) (by decide)
    simpa using h

/-- **C6 counterexample.**  The claim asserts the reader raises `BadMagic`
when the first eight bytes are invalid; instead `deserialize` on a buffer
whose first eight bytes are all zero (not valid magic) completes without any
error. -/
theorem claim_C6_counterexample :
    isValidMagicBytes ([0, 0, 0, 0, 0, 0, 0, 0] ++ u32le 0) = false ∧
    deserialize (fun _ _ => 0) (fun _ => ([] : List Unit))
        ([0, 0, 0, 0, 0, 0, 0, 0] ++ u32le 0) ⟨0, 0⟩ = .ok ⟨[], ⟨[]⟩⟩ := by
  constructor
  · decide
  · decide

/-- **C4 (amended).**  `serialize` raises synchronously exactly when an edge
violates the write-side constraints: an out-of-range `from` (resp. `to`)
yields an error whose message contains the offending index and
`Invalid 'from' index` (resp. `Invalid 'to' index`); an edge with
`from = to` yields an error whose message contains
`Self-loops are not allowed` (capitalized — the lowercase phrase of the claim
does not occur); edges satisfying the constraints never throw
(`buildGraphSection` succeeds iff every edge is valid). -/
theorem claim_C4 (rt : JsRuntime) (edges : List EdgeInput) (featureCount : Nat) :
    (∀ (edge : EdgeInput) (cols : Option (List ColumnMeta)),
      (edge.fromIdx < 0 ∨ edge.fromIdx ≥ (featureCount : Int)) →
      ∃ msg, buildEdgeRecord rt edge cols featureCount = .error msg ∧
        utf8 "Invalid \x27from\x27 index" <:+: msg ∧ intDecimal edge.fromIdx <:+: msg) ∧
    (∀ (edge : EdgeInput) (cols : Option (List ColumnMeta)),
      ¬(edge.fromIdx < 0 ∨ edge.fromIdx ≥ (featureCount : Int)) →
      (edge.toIdx < 0 ∨ edge.toIdx ≥ (featureCount : Int)) →
      ∃ msg, buildEdgeRecord rt edge cols featureCount = .error msg ∧
        utf8 "Invalid \x27to\x27 index" <:+: msg ∧ intDecimal edge.toIdx <:+: msg) ∧
    (∀ (edge : EdgeInput) (cols : Option (List ColumnMeta)),
      ¬(edge.fromIdx < 0 ∨ edge.fromIdx ≥ (featureCount : Int)) →
      ¬(edge.toIdx < 0 ∨ edge.toIdx ≥ (featureCount : Int)) →
      edge.fromIdx = edge.toIdx →
      ∃ msg, buildEdgeRecord rt edge cols featureCount = .error msg ∧
        utf8 "Self-loops are not allowed" <:+: msg) ∧
    ((∃ bs, buildGraphSection rt edges featureCount = .ok bs) ↔
      ∀ e ∈ edges, validEdge featureCount e) := by
  refine ⟨?_, ?_, ?_, ?_⟩
  · intro edge cols h
    refine ⟨_, by rw [buildEdgeRecord, if_pos h], ?_, ?_⟩
    · refine ⟨[], utf8 ": " ++ (intDecimal edge.fromIdx ++
        (utf8 ". Must be between 0 and " ++ intDecimal ((featureCount : Int) - 1))), ?_⟩
      have hsplit : utf8 "Invalid \x27from\x27 index: " =
          utf8 "Invalid \x27from\x27 index" ++ utf8 ": " := by decide
      rw [hsplit]
      simp
    · exact ⟨utf8 "Invalid \x27from\x27 index: ",
        utf8 ". Must be between 0 and " ++ intDecimal ((featureCount : Int) - 1), by simp⟩
  · intro edge cols h1 h2
    refine ⟨_, by rw [buildEdgeRecord, if_neg h1, if_pos h2], ?_, ?_⟩
    · refine ⟨[], utf8 ": " ++ (intDecimal edge.toIdx ++
        (utf8 ". Must be between 0 and " ++ intDecimal ((featureCount : Int) - 1))), ?_⟩
      have hsplit : utf8 "Invalid \x27to\x27 index: " =
          utf8 "Invalid \x27to\x27 index" ++ utf8 ": " := by decide
      rw [hsplit]
      simp
    · exact ⟨utf8 "Invalid \x27to\x27 index: ",
        utf8 ". Must be between 0 and " ++ intDecimal ((featureCount : Int) - 1), by simp⟩
  · intro edge cols h1 h2 h3
    refine ⟨_, by rw [buildEdgeRecord, if_neg h1, if_neg h2, if_pos h3], ?_⟩
    have hsplit : utf8 "Self-loops are not allowed: from=" =
        utf8 "Self-loops are not allowed" ++ utf8 ": from=" := by decide
    refine ⟨[], utf8 ": from=" ++ (intDecimal edge.fromIdx ++
      (utf8 ", to=" ++ intDecimal edge.toIdx)), ?_⟩
    rw [hsplit]
    simp
  · have henc := fun e (_ : e ∈ edges) =>
      encodeEdgeProperties_introspected_ok rt edges e.properties
    constructor
    · rintro ⟨bs, hbs⟩
      rw [buildGraphSection] at hbs
      match hr : buildEdgeRecords rt edges (introspectEdgeColumns edges) featureCount with
      | .error msg => rw [hr] at hbs; simp [Bind.bind, Except.bind] at hbs
      | .ok rbs =>
          exact (buildEdgeRecords_ok_iff rt edges (introspectEdgeColumns edges)
            featureCount henc).mp ⟨rbs, hr⟩
    · intro hv
      obtain ⟨rbs, hr⟩ := (buildEdgeRecords_ok_iff rt edges (introspectEdgeColumns edges)
        featureCount henc).mpr hv
      exact ⟨_, by rw [buildGraphSection, hr]; rfl⟩

/-- Witness for `claim_C4`: with two features, `from = 5` is rejected with the
expected message parts, `from = to = 0` is rejected as a self-loop, and the
valid single-edge list `[0 → 1]` serializes without error. -/
theorem claim_C4_witness :
    (∃ msg, buildEdgeRecord ⟨fun _ => [], fun _ => 0, id, id, fun _ => [], fun _ => []⟩
        ⟨5, 0, none⟩ none 2 = .error msg ∧
      utf8 "Invalid \x27from\x27 index" <:+: msg ∧ intDecimal 5 <:+: msg) ∧
    (∃ msg, buildEdgeRecord ⟨fun _ => [], fun _ => 0, id, id, fun _ => [], fun _ => []⟩
        ⟨0, 0, none⟩ none 2 = .error msg ∧
      utf8 "Self-loops are not allowed" <:+: msg) ∧
    (∃ bs, buildGraphSection ⟨fun _ => [], fun _ => 0, id, id, fun _ => [], fun _ => []⟩
        [⟨0, 1, none⟩] 2 = .ok bs) := by
  have h := claim_C4 ⟨fun _ => [], fun _ => 0, id, id, fun _ => [], fun _ => []⟩ [⟨0, 1, none⟩] 2
  exact ⟨h.1 ⟨5, 0, none⟩ none (by decide),
    h.2.2.1 ⟨0, 0, none⟩ none (by decide) (by decide) (by decide),
    h.2.2.2.mpr (by decide)⟩

/-- **C4 counterexample.**  The claim asserts the self-loop message contains
the phrase `self-loops are not allowed`; the actual message is capitalized
(`Self-loops are not allowed: from=0, to=0`) and does not contain the
lowercase phrase. -/
theorem claim_C4_counterexample :
    buildEdgeRecord ⟨fun _ => [], fun _ => 0, id, id, fun _ => [], fun _ => []⟩
        ⟨0, 0, none⟩ none 2 =
      .error (utf8 "Self-loops are not allowed: from=0, to=0") ∧
    ¬(utf8 "self-loops are not allowed" <:+:
      utf8 "Self-loops are not allowed: from=0, to=0") := by
  constructor
  · decide
  · decide

/-- **C8 counterexample.**  The 64-bit value `2^53 + 1` stored in a Long
column decodes to `2^53`, not to itself: the codec does not preserve the full
64-bit range through its `Number` intermediate. -/
theorem claim_C8_counterexample :
    parseEdgeProperties (u16le 0 ++ u64le (2 ^ 53 + 1)) [] (some [⟨[113], ctLong⟩]) =
      .ok [([113], .vInt (2 ^ 53))] ∧ ((2 ^ 53 : Int) ≠ 2 ^ 53 + 1) := by
  constructor
  · decide
  · decide

end FGG
